import Mathlib

/-!
# Verification of the album-birthdays aggregation-and-enrichment pipeline

This file gives a shallow embedding, in Lean 4, of the core of the
`albums-birthdays` repository (the aggregation-and-enrichment pipeline of
`album_analyzer/parser.py`, `album_analyzer/models.py`,
`album_analyzer/exporter.py`, `album_analyzer/release_date.py` and
`bot/birthdays.py`), together with theorems settling the specification
claims about it.

Modelling conventions:
* Python floats are modelled by exact rationals (`ℚ`); machine rounding is
  outside the scope of the claims, which speak about real arithmetic.
* Python `datetime.date` values are triples of naturals with the usual
  validity predicate; `date` subtraction is proleptic-Gregorian ordinal
  subtraction, exactly as CPython implements it via `date.toordinal`.
* Python sets are `Finset`s, Python dicts keyed by strings are association
  lists that preserve insertion order (CPython dicts preserve insertion
  order, which the code relies on for its stable sort tie-breaking).
* Python's stable `sorted`/`list.sort` is modelled by a stable insertion
  sort; any two stable sorts with the same comparison agree pointwise.
* Effects (file IO, HTTP) are abstracted into explicit inputs: an archive
  file carries its already-parsed content, the MusicBrainz endpoint is an
  arbitrary function from (title, artist) to a list of candidate release
  groups, and the `requests` failure mode is an explicit `err` outcome.
-/

/-! ## Python string primitives

ASCII models of the Python string operations used by the code
(`str.strip`, `str.lower`, membership tests, `str.split("-")`).  Only the
ASCII fragment is modelled; the repository's own behaviour on the claims'
inputs is ASCII.
-/

/-- ASCII model of Python's whitespace class (`str.strip()` and `\s`):
space, tab, newline, carriage return, vertical tab, form feed. -/
def isPyWs (c : Char) : Bool :=
  c = ' ' || c = '\t' || c = '\n' || c = '\r' || c = '\x0b' || c = '\x0c'

/-- Strip whitespace from both ends of a character list (Python `str.strip()`). -/
def stripWsChars (s : List Char) : List Char :=
  ((s.dropWhile isPyWs).reverse.dropWhile isPyWs).reverse

/-- Python `str.strip()` on strings. -/
def pyStrip (s : String) : String :=
  String.mk (stripWsChars s.data)

/-- Python `str.lower()` (ASCII fragment). -/
def pyLower (s : String) : String :=
  String.mk (s.data.map Char.toLower)

/-- Does `pat` occur as a contiguous sublist of `s`?  Models Python's
`pat in s` substring test. -/
def hasSubChars (pat : List Char) : List Char → Bool
  | [] => pat.isEmpty
  | c :: t => pat.isPrefixOf (c :: t) || hasSubChars pat t

/-- Python `pat in s` on strings. -/
def strHasSub (pat s : String) : Bool :=
  hasSubChars pat.data s.data

/-- Python `s.endswith(pat)`. -/
def strEndsWith (pat s : String) : Bool :=
  pat.data.isSuffixOf s.data

/-- Python `raw.split("-")`: split at every dash, keeping empty pieces. -/
def splitOnDash : List Char → List (List Char)
  | [] => [[]]
  | c :: t =>
    if c = '-' then [] :: splitOnDash t
    else
      match splitOnDash t with
      | h :: r => (c :: h) :: r
      | [] => [[c]]

/-! ## Python `int()` on strings

`int(s)` accepts optional surrounding whitespace, an optional sign, and a
nonempty digit sequence in which single underscores may separate digits.
(The ASCII fragment; this is the parser `_parse_release_date` relies on.)
-/

/-- Decimal value of a digit list (most significant first). -/
def digitsToNat (l : List Char) : ℕ :=
  l.foldl (fun a c => a * 10 + (c.toNat - 48)) 0

/-- Continue parsing a Python integer literal after at least one digit has
been read: digits, with single underscores allowed between digits. -/
def pyIntCore : List Char → ℕ → Option ℕ
  | [], acc => some acc
  | c :: t, acc =>
    if c.isDigit then pyIntCore t (acc * 10 + (c.toNat - 48))
    else if c = '_' then
      match t with
      | [] => none
      | d :: t2 =>
        if d.isDigit then pyIntCore t2 ((acc * 10 + (d.toNat - 48))) else none
    else none

/-- Parse the digit part of a Python integer literal (must start with a digit). -/
def pyIntDigits : List Char → Option ℕ
  | [] => none
  | c :: t => if c.isDigit then pyIntCore t (c.toNat - 48) else none

/-- Sign handling of Python `int(s)` after whitespace stripping. -/
def pyIntSigned : List Char → Option ℤ
  | '+' :: rest => (pyIntDigits rest).map (fun n => (n : ℤ))
  | '-' :: rest => (pyIntDigits rest).map (fun n => -(n : ℤ))
  | rest => (pyIntDigits rest).map (fun n => (n : ℤ))

/-- Model of Python `int(s)` (ASCII fragment): strip whitespace, optional
sign, digits with underscore grouping.  `none` models `ValueError`. -/
def pyIntChars (s : List Char) : Option ℤ :=
  pyIntSigned (stripWsChars s)

/-- Python `int(s)` on strings. -/
def pyInt (s : String) : Option ℤ :=
  pyIntChars s.data

/-! ## Python `datetime.date`

A calendar date in the proleptic Gregorian calendar.  `date.toordinal`
(used by CPython to implement date subtraction and comparison) is encoded
directly.
-/

/-- Gregorian leap-year test (`calendar.isleap`). -/
def isLeap (y : ℕ) : Bool :=
  y % 4 = 0 && (y % 100 ≠ 0 || y % 400 = 0)

/-- Days in a month of a given year. -/
def daysInMonth (y m : ℕ) : ℕ :=
  if m = 2 then (if isLeap y then 29 else 28)
  else if m = 4 || m = 6 || m = 9 || m = 11 then 30
  else 31

/-- Model of `datetime.date` (year, month, day). -/
structure PyDate where
  year : ℕ
  month : ℕ
  day : ℕ
deriving DecidableEq, Repr

/-- The validity invariant the `date` constructor enforces. -/
def PyDate.valid (d : PyDate) : Prop :=
  1 ≤ d.year ∧ d.year ≤ 9999 ∧ 1 ≤ d.month ∧ d.month ≤ 12 ∧
    1 ≤ d.day ∧ d.day ≤ daysInMonth d.year d.month

instance (d : PyDate) : Decidable d.valid := by
  unfold PyDate.valid; infer_instance

/-- `date(y, m, d)` as a checked constructor: `none` models `ValueError`. -/
def mkPyDate (y m d : ℤ) : Option PyDate :=
  if 1 ≤ y ∧ y ≤ 9999 ∧ 1 ≤ m ∧ m ≤ 12 ∧ 1 ≤ d ∧
      d ≤ (daysInMonth y.toNat m.toNat : ℤ) then
    some ⟨y.toNat, m.toNat, d.toNat⟩
  else none

/-- Days before the first of month `m` in year `y`. -/
def daysBeforeMonth (y m : ℕ) : ℕ :=
  (match m with
   | 1 => 0 | 2 => 31 | 3 => 59 | 4 => 90 | 5 => 120 | 6 => 151
   | 7 => 181 | 8 => 212 | 9 => 243 | 10 => 273 | 11 => 304 | _ => 334)
  + (if 2 < m && isLeap y then 1 else 0)

/-- `date.toordinal`: day number with 0001-01-01 ↦ 1. -/
def toOrdinal (d : PyDate) : ℤ :=
  ((d.year - 1) * 365 + (d.year - 1) / 4 - (d.year - 1) / 100
    + (d.year - 1) / 400 + daysBeforeMonth d.year d.month + d.day : ℕ)

/-- Python `date` comparison: lexicographic on (year, month, day). -/
def dateLt (a b : PyDate) : Prop :=
  a.year < b.year ∨ (a.year = b.year ∧
    (a.month < b.month ∨ (a.month = b.month ∧ a.day < b.day)))

instance (a b : PyDate) : Decidable (dateLt a b) := by
  unfold dateLt; infer_instance

/-- Boolean form of `dateLt`, as used inside the embedded code. -/
def dateLtB (a b : PyDate) : Bool := decide (dateLt a b)

theorem dateLt_trans {a b c : PyDate} (h1 : dateLt a b) (h2 : dateLt b c) :
    dateLt a c := by
  unfold dateLt at *; omega

theorem dateLt_asymm {a b : PyDate} (h1 : dateLt a b) : ¬ dateLt b a := by
  unfold dateLt at *; omega

theorem dateLt_total (a b : PyDate) : dateLt a b ∨ a = b ∨ dateLt b a := by
  unfold dateLt
  rcases a with ⟨ay, am, ad⟩; rcases b with ⟨by_, bm, bd⟩
  simp only [PyDate.mk.injEq]
  omega

/-! ## A stable sort

CPython's `sorted`/`list.sort` are stable.  We model them with a stable
insertion sort: `x` is inserted before the first element `y` with
`le x y`, so elements that compare equal keep their original order.
Sortedness, permutation and stability lemmas follow.
-/

/-- Insert `x` before the first element `y` of `l` with `le x y`. -/
def insertSorted (le : α → α → Bool) (x : α) : List α → List α
  | [] => [x]
  | y :: t => if le x y then x :: y :: t else y :: insertSorted le x t

/-- Stable insertion sort modelling Python `sorted(l, key=…)`. -/
def insSort (le : α → α → Bool) : List α → List α
  | [] => []
  | x :: t => insertSorted le x (insSort le t)

theorem insertSorted_perm (le : α → α → Bool) (x : α) (l : List α) :
    List.Perm (insertSorted le x l) (x :: l) := by
  induction l with
  | nil => simp [insertSorted]
  | cons y t ih =>
    simp only [insertSorted]
    by_cases h : le x y = true
    · simp [h]
    · simp only [h, if_neg]
      exact List.Perm.trans (List.Perm.cons y ih) (List.Perm.swap x y t)

theorem insSort_perm (le : α → α → Bool) (l : List α) :
    List.Perm (insSort le l) l := by
  induction l with
  | nil => simp [insSort]
  | cons x t ih =>
    exact List.Perm.trans (insertSorted_perm le x (insSort le t))
      (List.Perm.cons x ih)

theorem mem_insSort (le : α → α → Bool) (l : List α) (a : α) :
    a ∈ insSort le l ↔ a ∈ l :=
  (insSort_perm le l).mem_iff

theorem insertSorted_pairwise (le : α → α → Bool)
    (htot : ∀ a b, le a b = false → le b a = true)
    (htr : ∀ a b c, le a b = true → le b c = true → le a c = true)
    (x : α) (l : List α) (hl : l.Pairwise (fun a b => le a b = true)) :
    (insertSorted le x l).Pairwise (fun a b => le a b = true) := by
  induction l with
  | nil => simp [insertSorted]
  | cons y t ih =>
    rcases List.pairwise_cons.mp hl with ⟨hy, ht⟩
    simp only [insertSorted]
    by_cases h : le x y = true
    · simp only [h, if_pos]
      refine List.pairwise_cons.mpr ⟨?_, hl⟩
      intro b hb
      rcases List.mem_cons.mp hb with rfl | hb
      · exact h
      · exact htr x y b h (hy b hb)
    · simp only [h, if_neg, Bool.not_eq_true]
      refine List.pairwise_cons.mpr ⟨?_, ih ht⟩
      intro b hb
      have hmem : b ∈ x :: t := (insertSorted_perm le x t).mem_iff.mp hb
      rcases List.mem_cons.mp hmem with rfl | hb'
      · exact htot _ _ (Bool.eq_false_iff.mpr h)
      · exact hy b hb'

theorem insSort_pairwise (le : α → α → Bool)
    (htot : ∀ a b, le a b = false → le b a = true)
    (htr : ∀ a b c, le a b = true → le b c = true → le a c = true)
    (l : List α) :
    (insSort le l).Pairwise (fun a b => le a b = true) := by
  induction l with
  | nil => simp [insSort]
  | cons x t ih => exact insertSorted_pairwise le htot htr x (insSort le t) ih

/-- Stability: filtering on a class of elements that compare equal among
themselves commutes with sorting, provided `le x y = false` separates the
classes of `x` and `y`.  Instantiated with "has minutes `c`" (resp. a sort
key value) this says ties keep their original relative order. -/
theorem insertSorted_filter (le : α → α → Bool) (p : α → Bool)
    (hsep : ∀ a b, le a b = false → p a = true → p b = true → False)
    (x : α) (l : List α) :
    (insertSorted le x l).filter p =
      if p x then x :: l.filter p else l.filter p := by
  induction l with
  | nil => simp [insertSorted, List.filter_cons]
  | cons y t ih =>
    simp only [insertSorted]
    by_cases h : le x y = true
    · simp [h, List.filter_cons]
    · simp only [h, if_neg]
      by_cases hpx : p x = true
      · have hpy : ¬ p y = true := by
          intro hpy
          exact hsep x y (Bool.eq_false_iff.mpr h) hpx hpy
        simp [List.filter_cons, hpx, hpy, ih]
      · simp [List.filter_cons, hpx, ih]

theorem insSort_filter (le : α → α → Bool) (p : α → Bool)
    (hsep : ∀ a b, le a b = false → p a = true → p b = true → False)
    (l : List α) :
    (insSort le l).filter p = l.filter p := by
  induction l with
  | nil => simp [insSort]
  | cons x t ih =>
    rw [insSort, insertSorted_filter le p hsep, List.filter_cons, ih]

/-! ## The data model (`album_analyzer/models.py`)

`AlbumListening` — one row per (album, artist) pair.  `tracks` is a Python
set, modelled by a `Finset`; `minutes` is a float, modelled by `ℚ`.
-/

structure AlbumListening where
  album : String
  artist : String
  minutes : ℚ
  release_date : Option PyDate := none
  musicbrainz_id : Option String := none
  tracks : Finset String := ∅
deriving DecidableEq

/-! ## The aggregator (`album_analyzer/parser.py`, `aggregate_archives`)

`aggregate_archives` consumes the records produced by
`_iter_json_streams` + `_extract_album_entry`.  A `RawRecord` is one
already-extracted `(album, artist, track, minutes)` tuple, i.e. the value
`_extract_album_entry(entry)` returns (with `minutes = ms_played/60000`);
an archive path is modelled by the finite list of records it yields.
-/

structure RawRecord where
  album : Option String
  artist : Option String
  track : Option String
  minutes : ℚ
deriving DecidableEq

/-- Python truthiness of an optional string: `None` and `""` are falsy. -/
def optFalsy (s : Option String) : Bool :=
  match s with
  | none => true
  | some t => t = ""

/-- The skip condition `if not album or not artist or minutes <= 0`. -/
def skipRecord (r : RawRecord) : Bool :=
  optFalsy r.album || optFalsy r.artist || decide (r.minutes ≤ 0)

/-- `key = (album.strip(), artist.strip())`. -/
def recKey (r : RawRecord) : String × String :=
  (pyStrip (r.album.getD ""), pyStrip (r.artist.getD ""))

/-- `totals[key].minutes += minutes; if track: totals[key].tracks.add(track)`. -/
def bumpEntry (r : RawRecord) (e : AlbumListening) : AlbumListening :=
  { e with
    minutes := e.minutes + r.minutes,
    tracks := match r.track with
              | some t => if t = "" then e.tracks else insert t e.tracks
              | none => e.tracks }

/-- `AlbumListening(album=key[0], artist=key[1], minutes=0.0)`. -/
def freshEntry (k : String × String) : AlbumListening :=
  { album := k.1, artist := k.2, minutes := 0 }

/-- Key of an accumulated entry. -/
def keyOf (e : AlbumListening) : String × String := (e.album, e.artist)

/-- Dict get-or-create followed by the `+=`/`add` mutation: update the
first (and, keys being unique, only) entry with the key in place, or
append a new one — exactly the CPython-dict insertion-order semantics. -/
def bumpFirst (r : RawRecord) (k : String × String) :
    List AlbumListening → List AlbumListening
  | [] => [bumpEntry r (freshEntry k)]
  | e :: t => if keyOf e = k then bumpEntry r e :: t else e :: bumpFirst r k t

/-- One iteration of the loop body of `aggregate_archives`. -/
def addRecord (totals : List AlbumListening) (r : RawRecord) : List AlbumListening :=
  if skipRecord r then totals else bumpFirst r (recKey r) totals

/-- The `totals` dict after all archives, in insertion (first-encounter)
order.  Iterating `for path in paths: for entry in …` is folding over the
concatenation of the per-path record streams. -/
def totalsList (paths : List (List RawRecord)) : List AlbumListening :=
  paths.flatten.foldl addRecord []

/-- The comparison of `sorted(…, key=lambda item: item.minutes, reverse=True)`:
stable descending order by minutes. -/
def minutesGe (a b : AlbumListening) : Bool := decide (b.minutes ≤ a.minutes)

/-- `aggregate_archives`. -/
def aggregateArchives (paths : List (List RawRecord)) : List AlbumListening :=
  insSort minutesGe (totalsList paths)

/-- `filter_by_minutes`. -/
def filterByMinutes (albums : List AlbumListening) (minimumMinutes : ℚ) :
    List AlbumListening :=
  albums.filter (fun a => decide (minimumMinutes ≤ a.minutes))

/-! Specification-side quantities: the contribution of a record stream to
one key, written the way §4.3 of the spec reads. -/

/-- The records that survive the skip condition. -/
def passing (recs : List RawRecord) : List RawRecord :=
  recs.filter (fun r => !skipRecord r)

/-- Sum of the minutes of the passing records carrying key `k`. -/
def contribMinutes (recs : List RawRecord) (k : String × String) : ℚ :=
  (((passing recs).filter (fun r => decide (recKey r = k))).map
    (fun r => r.minutes)).sum

/-- The non-empty track name of a record, if any. -/
def trackOf (r : RawRecord) : Option String :=
  match r.track with
  | some t => if t = "" then none else some t
  | none => none

/-- Set of non-empty track names of the passing records carrying key `k`. -/
def contribTracks (recs : List RawRecord) (k : String × String) : Finset String :=
  (((passing recs).filter (fun r => decide (recKey r = k))).filterMap trackOf).toFinset

/-- Does some passing record carry key `k`? -/
def hasKey (recs : List RawRecord) (k : String × String) : Bool :=
  (passing recs).any (fun r => decide (recKey r = k))

/-- First entry with key `k` (keys are unique, so the entry with key `k`). -/
def findEntry (l : List AlbumListening) (k : String × String) :
    Option AlbumListening :=
  l.find? (fun e => decide (keyOf e = k))

theorem keyOf_bumpEntry (r : RawRecord) (e : AlbumListening) :
    keyOf (bumpEntry r e) = keyOf e := rfl

theorem keyOf_freshEntry (k : String × String) : keyOf (freshEntry k) = k := by
  cases k; rfl

theorem findEntry_nil (k : String × String) : findEntry [] k = none := rfl

theorem findEntry_cons (e : AlbumListening) (t : List AlbumListening)
    (k : String × String) :
    findEntry (e :: t) k = if keyOf e = k then some e else findEntry t k := by
  by_cases h : keyOf e = k
  · rw [if_pos h]
    exact List.find?_cons_of_pos _ (by simp [h])
  · rw [if_neg h]
    exact List.find?_cons_of_neg _ (by simp [h])

theorem findEntry_bumpFirst (r : RawRecord) (k k2 : String × String)
    (l : List AlbumListening) :
    findEntry (bumpFirst r k l) k2 =
      if k2 = k then some (bumpEntry r ((findEntry l k).getD (freshEntry k)))
      else findEntry l k2 := by
  induction l with
  | nil =>
    by_cases h : k2 = k
    · subst h
      simp [bumpFirst, findEntry_cons, keyOf_bumpEntry, keyOf_freshEntry,
        findEntry_nil]
    · have h' : ¬ k = k2 := fun hh => h hh.symm
      simp [bumpFirst, findEntry_cons, keyOf_bumpEntry, keyOf_freshEntry,
        findEntry_nil, h, h']
  | cons e t ih =>
    by_cases he : keyOf e = k
    · by_cases h2 : k2 = k
      · subst h2
        simp [bumpFirst, he, findEntry_cons, keyOf_bumpEntry]
      · have h2' : ¬ k = k2 := fun hh => h2 hh.symm
        have he2 : ¬ keyOf e = k2 := by rw [he]; exact h2'
        simp [bumpFirst, he, findEntry_cons, keyOf_bumpEntry, h2, h2', he2]
    · by_cases h2 : k2 = k
      · subst h2
        simp [bumpFirst, he, findEntry_cons, ih]
      · by_cases h3 : keyOf e = k2
        · simp [bumpFirst, he, findEntry_cons, ih, h2, h3]
        · simp [bumpFirst, he, findEntry_cons, ih, h2, h3]

theorem passing_cons_skip {r : RawRecord} (recs : List RawRecord)
    (h : skipRecord r = true) : passing (r :: recs) = passing recs := by
  simp [passing, List.filter_cons, h]

theorem passing_cons_pass {r : RawRecord} (recs : List RawRecord)
    (h : skipRecord r = false) : passing (r :: recs) = r :: passing recs := by
  simp [passing, List.filter_cons, h]

theorem contribMinutes_cons_skip {r : RawRecord} (recs : List RawRecord)
    (k : String × String) (h : skipRecord r = true) :
    contribMinutes (r :: recs) k = contribMinutes recs k := by
  simp [contribMinutes, passing_cons_skip recs h]

theorem contribMinutes_cons_pass {r : RawRecord} (recs : List RawRecord)
    (k : String × String) (h : skipRecord r = false) :
    contribMinutes (r :: recs) k =
      (if recKey r = k then r.minutes else 0) + contribMinutes recs k := by
  by_cases hk : recKey r = k <;>
    simp [contribMinutes, passing_cons_pass recs h, List.filter_cons, hk]

theorem contribTracks_cons_skip {r : RawRecord} (recs : List RawRecord)
    (k : String × String) (h : skipRecord r = true) :
    contribTracks (r :: recs) k = contribTracks recs k := by
  simp [contribTracks, passing_cons_skip recs h]

theorem contribTracks_cons_pass {r : RawRecord} (recs : List RawRecord)
    (k : String × String) (h : skipRecord r = false) (hk : recKey r = k) :
    contribTracks (r :: recs) k =
      match trackOf r with
      | some t => insert t (contribTracks recs k)
      | none => contribTracks recs k := by
  cases htr : trackOf r with
  | none =>
    simp [contribTracks, passing_cons_pass recs h, List.filter_cons, hk,
      List.filterMap_cons, htr]
  | some t =>
    simp [contribTracks, passing_cons_pass recs h, List.filter_cons, hk,
      List.filterMap_cons, htr]

theorem contribTracks_cons_pass_ne {r : RawRecord} (recs : List RawRecord)
    (k : String × String) (h : skipRecord r = false) (hk : ¬ recKey r = k) :
    contribTracks (r :: recs) k = contribTracks recs k := by
  simp [contribTracks, passing_cons_pass recs h, List.filter_cons, hk]

theorem hasKey_cons_skip {r : RawRecord} (recs : List RawRecord)
    (k : String × String) (h : skipRecord r = true) :
    hasKey (r :: recs) k = hasKey recs k := by
  simp [hasKey, passing_cons_skip recs h]

theorem hasKey_cons_pass {r : RawRecord} (recs : List RawRecord)
    (k : String × String) (h : skipRecord r = false) :
    hasKey (r :: recs) k = (decide (recKey r = k) || hasKey recs k) := by
  simp [hasKey, passing_cons_pass recs h, List.any_cons]

/-- Merging a later contribution into a just-bumped entry is the same as
merging the combined contribution into the original entry. -/
theorem bumpEntry_merge (r : RawRecord) (e : AlbumListening) (cm : ℚ)
    (ct : Finset String) :
    ({ bumpEntry r e with
        minutes := (bumpEntry r e).minutes + cm,
        tracks := (bumpEntry r e).tracks ∪ ct } : AlbumListening)
      = { e with
          minutes := e.minutes + (r.minutes + cm),
          tracks := e.tracks ∪ (match trackOf r with
                                | some t => insert t ct
                                | none => ct) } := by
  cases e with
  | mk al ar m rd mb tr =>
    cases htrk : r.track with
    | none => simp [bumpEntry, trackOf, htrk, add_assoc]
    | some t =>
      by_cases ht : t = ""
      · simp [bumpEntry, trackOf, htrk, ht, add_assoc]
      · simp [bumpEntry, trackOf, htrk, ht, add_assoc, Finset.insert_union,
          Finset.union_insert]

/-- The central invariant of the aggregation loop: after folding a record
stream into the totals dict, the entry at key `k` is the initial entry (or
a fresh zero entry) with the stream's minute and track contributions for
`k` folded in. -/
theorem foldl_addRecord_findEntry (recs : List RawRecord) :
    ∀ (acc : List AlbumListening) (k : String × String),
    findEntry (recs.foldl addRecord acc) k =
      match findEntry acc k with
      | some e => some { e with minutes := e.minutes + contribMinutes recs k,
                                tracks := e.tracks ∪ contribTracks recs k }
      | none =>
        if hasKey recs k then
          some { freshEntry k with minutes := contribMinutes recs k,
                                   tracks := contribTracks recs k }
        else none := by
  induction recs with
  | nil =>
    intro acc k
    cases hfind : findEntry acc k with
    | none => simp [hasKey, passing, hfind]
    | some e => simp [contribMinutes, contribTracks, passing, hfind]
  | cons r rest ih =>
    intro acc k
    rw [List.foldl_cons]
    by_cases hskip : skipRecord r = true
    · have hstep : addRecord acc r = acc := by simp [addRecord, hskip]
      rw [hstep, ih acc k, contribMinutes_cons_skip rest k hskip,
        contribTracks_cons_skip rest k hskip, hasKey_cons_skip rest k hskip]
    · have hskip' : skipRecord r = false := Bool.eq_false_iff.mpr hskip
      have hstep : addRecord acc r = bumpFirst r (recKey r) acc := by
        simp [addRecord, hskip']
      rw [hstep, ih (bumpFirst r (recKey r) acc) k, findEntry_bumpFirst]
      by_cases hk : k = recKey r
      · have hk' : recKey r = k := hk.symm
        rw [if_pos hk, contribMinutes_cons_pass rest k hskip', if_pos hk',
          contribTracks_cons_pass rest k hskip' hk',
          hasKey_cons_pass rest k hskip', hk']
        cases hfind : findEntry acc k with
        | some e =>
          simp only [hfind, Option.getD_some, bumpEntry_merge]
        | none =>
          simp only [hfind, Option.getD_none, bumpEntry_merge, decide_eq_true rfl,
            Bool.true_or, if_pos rfl]
          have hfm : (freshEntry k).minutes = 0 := rfl
          have hft : (freshEntry k).tracks = ∅ := rfl
          rw [hfm, hft, zero_add, Finset.empty_union]
          simp
      · have hk' : ¬ recKey r = k := fun h => hk h.symm
        rw [if_neg hk, contribMinutes_cons_pass rest k hskip', if_neg hk',
          contribTracks_cons_pass_ne rest k hskip' hk',
          hasKey_cons_pass rest k hskip']
        simp [hk', zero_add]

theorem keysOf_bumpFirst (r : RawRecord) (k : String × String) :
    ∀ l : List AlbumListening,
    (bumpFirst r k l).map keyOf =
      if k ∈ l.map keyOf then l.map keyOf else l.map keyOf ++ [k]
  | [] => by simp [bumpFirst, keyOf_bumpEntry, keyOf_freshEntry]
  | e :: t => by
    by_cases he : keyOf e = k
    · simp [bumpFirst, he, keyOf_bumpEntry]
    · have hne : ¬ k = keyOf e := fun h => he h.symm
      simp only [bumpFirst, he, ite_false, List.map_cons, keysOf_bumpFirst r k t,
        List.mem_cons]
      by_cases hmem : k ∈ t.map keyOf
      · simp [hmem, hne]
      · simp [hmem, hne]

/-- The totals dict never holds two entries with the same key. -/
theorem nodup_keys_foldl (recs : List RawRecord) :
    ∀ acc : List AlbumListening, (acc.map keyOf).Nodup →
    ((recs.foldl addRecord acc).map keyOf).Nodup := by
  induction recs with
  | nil => intro acc h; exact h
  | cons r rest ih =>
    intro acc h
    rw [List.foldl_cons]
    refine ih (addRecord acc r) ?_
    by_cases hskip : skipRecord r = true
    · simpa [addRecord, hskip] using h
    · have hskip' : skipRecord r = false := Bool.eq_false_iff.mpr hskip
      rw [addRecord.eq_def, hskip']
      simp only [Bool.false_eq_true, ite_false]
      rw [keysOf_bumpFirst]
      by_cases hmem : recKey r ∈ acc.map keyOf
      · simpa [hmem] using h
      · simp only [hmem, ite_false]
        refine List.Nodup.append h (List.nodup_singleton _) ?_
        intro a ha hb
        rw [List.mem_singleton] at hb
        subst hb
        exact hmem ha

theorem nodup_keys_totalsList (paths : List (List RawRecord)) :
    ((totalsList paths).map keyOf).Nodup :=
  nodup_keys_foldl paths.flatten [] (by simp)

theorem findEntry_of_mem :
    ∀ (l : List AlbumListening), (l.map keyOf).Nodup →
    ∀ e ∈ l, findEntry l (keyOf e) = some e
  | [], _, e, he => absurd he (List.not_mem_nil e)
  | x :: t, hnd, e, he => by
    rcases List.mem_cons.mp he with rfl | ht
    · rw [findEntry_cons, if_pos rfl]
    · rw [findEntry_cons]
      have hx : ¬ keyOf x = keyOf e := by
        intro hxy
        have : keyOf e ∈ t.map keyOf := List.mem_map_of_mem keyOf ht
        rw [← hxy] at this
        exact (List.nodup_cons.mp (by simpa using hnd)).1 this
      rw [if_neg hx]
      exact findEntry_of_mem t (List.nodup_cons.mp (by simpa using hnd)).2 e ht

theorem key_findEntry {l : List AlbumListening} {k : String × String}
    {e : AlbumListening} (h : findEntry l k = some e) : keyOf e = k := by
  unfold findEntry at h
  have h2 := List.find?_some h
  simpa using h2

theorem mem_of_findEntry {l : List AlbumListening} {k : String × String}
    {e : AlbumListening} (h : findEntry l k = some e) : e ∈ l :=
  List.mem_of_find?_eq_some h

/-- Every accumulated entry is exactly its key's aggregate: trimmed key,
minutes summed from `0.0` over its passing records, tracks the set of
their non-empty track names, and no release data. -/
theorem totalsList_mem_char (paths : List (List RawRecord))
    (e : AlbumListening) (he : e ∈ totalsList paths) :
    hasKey paths.flatten (keyOf e) = true ∧
    e = { freshEntry (keyOf e) with
          minutes := contribMinutes paths.flatten (keyOf e),
          tracks := contribTracks paths.flatten (keyOf e) } := by
  have hfind : findEntry (totalsList paths) (keyOf e) = some e :=
    findEntry_of_mem _ (nodup_keys_totalsList paths) e he
  have hchar := foldl_addRecord_findEntry paths.flatten [] (keyOf e)
  rw [totalsList] at hfind
  rw [hfind, findEntry_nil] at hchar
  by_cases hk : hasKey paths.flatten (keyOf e) = true
  · rw [if_pos hk] at hchar
    exact ⟨hk, Option.some.inj hchar⟩
  · rw [if_neg hk] at hchar
    exact absurd hchar (by simp)

/-- Conversely, every key carried by some passing record shows up. -/
theorem totalsList_mem_of_hasKey (paths : List (List RawRecord))
    (k : String × String) (hk : hasKey paths.flatten k = true) :
    ∃ e ∈ totalsList paths, keyOf e = k := by
  have hchar := foldl_addRecord_findEntry paths.flatten [] k
  rw [findEntry_nil] at hchar
  rw [if_pos hk] at hchar
  exact ⟨_, mem_of_findEntry (l := totalsList paths) hchar,
    key_findEntry (l := totalsList paths) hchar⟩

theorem passing_append (l1 l2 : List RawRecord) :
    passing (l1 ++ l2) = passing l1 ++ passing l2 := by
  simp [passing, List.filter_append]

theorem contribMinutes_append (l1 l2 : List RawRecord) (k : String × String) :
    contribMinutes (l1 ++ l2) k = contribMinutes l1 k + contribMinutes l2 k := by
  simp [contribMinutes, passing_append, List.filter_append, List.map_append,
    List.sum_append]

theorem contribTracks_append (l1 l2 : List RawRecord) (k : String × String) :
    contribTracks (l1 ++ l2) k = contribTracks l1 k ∪ contribTracks l2 k := by
  simp [contribTracks, passing_append, List.filter_append, List.filterMap_append,
    List.toFinset_append]

theorem hasKey_append (l1 l2 : List RawRecord) (k : String × String) :
    hasKey (l1 ++ l2) k = (hasKey l1 k || hasKey l2 k) := by
  simp [hasKey, passing_append, List.any_append]

theorem minutesGe_total (a b : AlbumListening) :
    minutesGe a b = false → minutesGe b a = true := by
  simp only [minutesGe, decide_eq_false_iff_not, decide_eq_true_eq, not_le]
  exact le_of_lt

theorem minutesGe_trans (a b c : AlbumListening) :
    minutesGe a b = true → minutesGe b c = true → minutesGe a c = true := by
  simp only [minutesGe, decide_eq_true_eq]
  intro h1 h2
  exact le_trans h2 h1

theorem minutesGe_sep (c : ℚ) (a b : AlbumListening) :
    minutesGe a b = false → decide (a.minutes = c) = true →
    decide (b.minutes = c) = true → False := by
  simp only [minutesGe, decide_eq_false_iff_not, decide_eq_true_eq, not_le]
  intro h1 h2 h3
  rw [h2, h3] at h1
  exact lt_irrefl c h1

/-! ## The anniversary calculator (`bot/birthdays.py`)

`_replace_year` calls `date.replace(year=…)`, which raises `ValueError`
exactly when the source date is February 29 and the target year is not a
leap year (every other month/day combination is valid in every year); the
handler then substitutes February 28.  The embedding folds the
`try`/`except` into that conditional.
-/

structure UpcomingBirthday where
  album : AlbumListening
  next_date : PyDate
  age : ℤ
  days_until : ℤ
deriving DecidableEq

/-- `_replace_year(source, year)`. -/
def replaceYear (source : PyDate) (year : ℕ) : PyDate :=
  if source.month = 2 ∧ source.day = 29 ∧ ¬ isLeap year then ⟨year, 2, 28⟩
  else ⟨year, source.month, source.day⟩

/-- `next_birthday(release_date, today)`. -/
def nextBirthday (release_date today : PyDate) : PyDate :=
  let candidate := replaceYear release_date today.year
  if dateLtB candidate today then replaceYear release_date (today.year + 1)
  else candidate

/-- Lexicographic `≤` on the Python sort key `(days_until, artist, album)`. -/
def lexLe3 (x y : ℤ × String × String) : Prop :=
  x.1 < y.1 ∨ (x.1 = y.1 ∧
    (x.2.1 < y.2.1 ∨ (x.2.1 = y.2.1 ∧ x.2.2 ≤ y.2.2)))

instance (x y : ℤ × String × String) : Decidable (lexLe3 x y) := by
  unfold lexLe3; infer_instance

theorem lexLe3_total (x y : ℤ × String × String) :
    ¬ lexLe3 x y → lexLe3 y x := by
  intro h
  unfold lexLe3 at *
  push_neg at h
  rcases lt_trichotomy x.1 y.1 with h1 | h1 | h1
  · exact absurd h1 h.1.not_lt
  · rcases lt_trichotomy x.2.1 y.2.1 with h2 | h2 | h2
    · exact absurd h2 ((h.2 h1).1.not_lt)
    · exact Or.inr ⟨h1.symm, Or.inr ⟨h2.symm,
        le_of_lt ((h.2 h1).2 h2)⟩⟩
    · exact Or.inr ⟨h1.symm, Or.inl h2⟩
  · exact Or.inl h1
  
theorem lexLe3_trans (x y z : ℤ × String × String) :
    lexLe3 x y → lexLe3 y z → lexLe3 x z := by
  unfold lexLe3
  intro h1 h2
  rcases h1 with h1 | ⟨ha, h1⟩
  · rcases h2 with h2 | ⟨hb, h2⟩
    · exact Or.inl (lt_trans h1 h2)
    · exact Or.inl (hb ▸ h1)
  · rcases h2 with h2 | ⟨hb, h2⟩
    · exact Or.inl (ha ▸ h2)
    · refine Or.inr ⟨ha.trans hb, ?_⟩
      rcases h1 with h1 | ⟨hc, h1⟩
      · rcases h2 with h2 | ⟨hd, h2⟩
        · exact Or.inl (lt_trans h1 h2)
        · exact Or.inl (hd ▸ h1)
      · rcases h2 with h2 | ⟨hd, h2⟩
        · exact Or.inl (hc ▸ h2)
        · exact Or.inr ⟨hc.trans hd, le_trans h1 h2⟩

/-- The sort key `(item.days_until, item.album.artist, item.album.album)`. -/
def birthdayKey (e : UpcomingBirthday) : ℤ × String × String :=
  (e.days_until, e.album.artist, e.album.album)

/-- The comparison used by `upcoming.sort(key=…)`. -/
def birthdayLe (a b : UpcomingBirthday) : Bool :=
  decide (lexLe3 (birthdayKey a) (birthdayKey b))

theorem birthdayLe_total (a b : UpcomingBirthday) :
    birthdayLe a b = false → birthdayLe b a = true := by
  simp only [birthdayLe, decide_eq_false_iff_not, decide_eq_true_eq]
  exact lexLe3_total _ _

theorem birthdayLe_trans (a b c : UpcomingBirthday) :
    birthdayLe a b = true → birthdayLe b c = true → birthdayLe a c = true := by
  simp only [birthdayLe, decide_eq_true_eq]
  exact lexLe3_trans _ _ _

/-- The loop body of `calculate_upcoming_birthdays`: the event appended
for one album, if any. -/
def birthdayEvent (today : PyDate) (withinDays : ℤ) (a : AlbumListening) :
    Option UpcomingBirthday :=
  match a.release_date with
  | none => none
  | some rd =>
    let next_day := nextBirthday rd today
    let days_until := toOrdinal next_day - toOrdinal today
    if days_until > withinDays then none
    else some { album := a, next_date := next_day,
                age := (next_day.year : ℤ) - (rd.year : ℤ),
                days_until := days_until }

/-- `calculate_upcoming_birthdays(albums, today, within_days)`. -/
def calculateUpcomingBirthdays (albums : List AlbumListening) (today : PyDate)
    (withinDays : ℤ) : List UpcomingBirthday :=
  insSort birthdayLe (albums.filterMap (birthdayEvent today withinDays))

theorem replaceYear_char (rd : PyDate) (y : ℕ) :
    (replaceYear rd y).year = y ∧
    (rd.month = 2 ∧ rd.day = 29 ∧ ¬ isLeap y →
      (replaceYear rd y).month = 2 ∧ (replaceYear rd y).day = 28) ∧
    (¬ (rd.month = 2 ∧ rd.day = 29 ∧ ¬ isLeap y) →
      (replaceYear rd y).month = rd.month ∧ (replaceYear rd y).day = rd.day) := by
  unfold replaceYear
  split_ifs with h
  · exact ⟨rfl, fun _ => ⟨rfl, rfl⟩, fun hc => absurd h hc⟩
  · exact ⟨rfl, fun hc => absurd hc h, fun _ => ⟨rfl, rfl⟩⟩

theorem nextBirthday_cases (rd t : PyDate) :
    (nextBirthday rd t = replaceYear rd t.year ∧
      ¬ dateLt (replaceYear rd t.year) t) ∨
    (nextBirthday rd t = replaceYear rd (t.year + 1) ∧
      dateLt (replaceYear rd t.year) t) := by
  unfold nextBirthday
  by_cases h : dateLtB (replaceYear rd t.year) t = true
  · exact Or.inr ⟨by simp [h], of_decide_eq_true h⟩
  · refine Or.inl ⟨by simp [h], ?_⟩
    intro hlt
    exact h (decide_eq_true hlt)

/-- The computed next anniversary never falls before the reference date. -/
theorem nextBirthday_not_lt (rd t : PyDate) : ¬ dateLt (nextBirthday rd t) t := by
  rcases nextBirthday_cases rd t with ⟨heq, hnot⟩ | ⟨heq, _⟩
  · rw [heq]; exact hnot
  · rw [heq]
    intro hlt
    have hy : (replaceYear rd (t.year + 1)).year = t.year + 1 :=
      (replaceYear_char rd (t.year + 1)).1
    unfold dateLt at hlt
    omega

/-- The next anniversary is in the reference year or the following one,
and the following year is used exactly when the reference year's
anniversary falls strictly before the reference date. -/
theorem nextBirthday_year (rd t : PyDate) :
    ((nextBirthday rd t).year = t.year ∧ ¬ dateLt (replaceYear rd t.year) t) ∨
    ((nextBirthday rd t).year = t.year + 1 ∧ dateLt (replaceYear rd t.year) t) := by
  rcases nextBirthday_cases rd t with ⟨heq, hnot⟩ | ⟨heq, hlt⟩
  · exact Or.inl ⟨by rw [heq]; exact (replaceYear_char rd t.year).1, hnot⟩
  · exact Or.inr ⟨by rw [heq]; exact (replaceYear_char rd (t.year + 1)).1, hlt⟩

/-- Leap-day rule, read off the final event date: the anniversary keeps
the release's month and day unless the release is February 29 and the
chosen year is not a leap year, in which case February 28 is used. -/
theorem nextBirthday_monthday (rd t : PyDate) :
    (rd.month = 2 ∧ rd.day = 29 ∧ ¬ isLeap (nextBirthday rd t).year →
      (nextBirthday rd t).month = 2 ∧ (nextBirthday rd t).day = 28) ∧
    (¬ (rd.month = 2 ∧ rd.day = 29 ∧ ¬ isLeap (nextBirthday rd t).year) →
      (nextBirthday rd t).month = rd.month ∧ (nextBirthday rd t).day = rd.day) := by
  rcases nextBirthday_cases rd t with ⟨heq, _⟩ | ⟨heq, _⟩ <;>
    · rw [heq, (replaceYear_char rd _).1]
      exact ⟨(replaceYear_char rd _).2.1, (replaceYear_char rd _).2.2⟩

theorem mem_calculateUpcomingBirthdays (albums : List AlbumListening)
    (today : PyDate) (withinDays : ℤ) (e : UpcomingBirthday) :
    e ∈ calculateUpcomingBirthdays albums today withinDays ↔
      ∃ a ∈ albums, birthdayEvent today withinDays a = some e := by
  rw [calculateUpcomingBirthdays, mem_insSort]
  exact List.mem_filterMap

theorem birthdayEvent_eq_some (today : PyDate) (withinDays : ℤ)
    (a : AlbumListening) (e : UpcomingBirthday) :
    birthdayEvent today withinDays a = some e ↔
      ∃ rd, a.release_date = some rd ∧
        e.album = a ∧
        e.next_date = nextBirthday rd today ∧
        e.days_until = toOrdinal (nextBirthday rd today) - toOrdinal today ∧
        e.age = ((nextBirthday rd today).year : ℤ) - (rd.year : ℤ) ∧
        e.days_until ≤ withinDays := by
  cases hrd : a.release_date with
  | none => simp [birthdayEvent, hrd]
  | some rd =>
    simp only [birthdayEvent, hrd, Option.some.injEq]
    by_cases hdu : toOrdinal (nextBirthday rd today) - toOrdinal today > withinDays
    · simp only [hdu, ite_true]
      constructor
      · intro h
        exact absurd h (by simp)
      · rintro ⟨rd2, rfl, _, _, hdu2, _, hle⟩
        exfalso
        rw [hdu2] at hle
        omega
    · simp only [hdu, ite_false]
      constructor
      · intro h
        have he := Option.some.inj h
        refine ⟨rd, rfl, ?_, ?_, ?_, ?_, ?_⟩ <;> rw [← he]
        exact le_of_not_lt hdu
      · rintro ⟨rd2, rfl, h2, h3, h4, h5, _⟩
        cases e
        simp only at h2 h3 h4 h5
        simp [h2, h3, h4, h5]

/-! ## Serialization (`album_analyzer/models.py`, `album_analyzer/exporter.py`)

`to_dict` writes `{album, artist, minutes_listened (rounded to 2
decimals), release_date (ISO string or None), musicbrainz_id, tracks
(sorted list)}`; `from_dict` reads it back.  The ISO date string is
modelled by the date value itself (`date.fromisoformat ∘ date.isoformat`
is the identity, and an `isoformat` string is never empty, so the
truthiness test `if data.get("release_date")` is the `Option` match).
Python `round(x, 2)` is round-half-even at two decimal places.
-/

/-- Round-half-even to an integer. -/
def roundHalfEven (q : ℚ) : ℤ :=
  let n := ⌊q⌋
  let r := q - n
  if r < 1/2 then n
  else if 1/2 < r then n + 1
  else if 2 ∣ n then n else n + 1

/-- Python `round(x, 2)` on exact rationals. -/
def round2 (q : ℚ) : ℚ := (roundHalfEven (q * 100) : ℚ) / 100

/-- The dictionary produced by `AlbumListening.to_dict`. -/
structure AlbumDict where
  album : String
  artist : String
  minutes_listened : ℚ
  release_date : Option PyDate
  musicbrainz_id : Option String
  tracks : List String
deriving DecidableEq

/-- `AlbumListening.to_dict`. -/
def toDict (a : AlbumListening) : AlbumDict :=
  { album := a.album
    artist := a.artist
    minutes_listened := round2 a.minutes
    release_date := a.release_date
    musicbrainz_id := a.musicbrainz_id
    tracks := a.tracks.sort (· ≤ ·) }

/-- `AlbumListening.from_dict`. -/
def fromDict (d : AlbumDict) : AlbumListening :=
  { album := d.album
    artist := d.artist
    minutes := d.minutes_listened
    release_date := d.release_date
    musicbrainz_id := d.musicbrainz_id
    tracks := d.tracks.toFinset }

/-- The persisted payload (`_build_payload`); `generated_at` is an opaque
timestamp irrelevant to, and ignored by, `load_albums`. -/
structure Payload where
  albums : List AlbumDict
deriving DecidableEq

/-- `serialize_albums` / `export_albums` (the JSON text is modelled by the
payload value it encodes). -/
def serializeAlbums (albums : List AlbumListening) : Payload :=
  { albums := albums.map toDict }

/-- `load_albums`. -/
def loadAlbums (p : Payload) : List AlbumListening :=
  p.albums.map fromDict

theorem fromDict_toDict (a : AlbumListening) :
    fromDict (toDict a) = { a with minutes := round2 a.minutes } := by
  cases a with
  | mk al ar m rd mb tr =>
    simp only [fromDict, toDict]
    congr 1
    exact Finset.sort_toFinset _ tr

/-! ## Release-date parsing (`album_analyzer/release_date.py`, `_parse_release_date`)

The code splits on `"-"`, feeds 1–3 parts through `int(…)` and the `date`
constructor, and maps a `ValueError` (from `int` or from `date`) to
`None`; `None` and `""` short-circuit to `None` up front.  The `date`
constructor can also raise `OverflowError` — a component outside the
C-int range — which the `except ValueError` handler does *not* catch.
Two models follow: the total `parseReleaseDate`, which identifies that
uncaught path with `none` (adequate for the lookup, whose catalog
contract, spec §6, bounds the date strings it ever sees), and the
error-faithful `parseReleaseDateE`, which keeps the escaping exception
explicit; `parseReleaseDate_totalize` relates the two.
-/

/-- Body of the `try` block of `_parse_release_date`, total form: build a
date from the dash-separated parts, 1–3 of them, missing month/day
defaulting to 1; `none` models a caught `ValueError`, an unhandled part
count, or (collapsed) the uncaught `OverflowError` path. -/
def parseParts : List (List Char) → Option PyDate
  | [p] =>
    (match pyIntChars p with
     | some y => mkPyDate y 1 1
     | none => none)
  | [p1, p2] =>
    (match pyIntChars p1, pyIntChars p2 with
     | some y, some m => mkPyDate y m 1
     | _, _ => none)
  | [p1, p2, p3] =>
    (match pyIntChars p1, pyIntChars p2, pyIntChars p3 with
     | some y, some m, some d => mkPyDate y m d
     | _, _, _ => none)
  | _ => none

/-- Total model of `_parse_release_date(raw)`: every exception path is
collapsed to `none`; `parseReleaseDateE` below is the error-faithful
model. -/
def parseReleaseDate : Option String → Option PyDate
  | none => none
  | some s => if s = "" then none else parseParts (splitOnDash s.data)

/-- Shape of the total model over the `int`-mapped parts list (the total
counterpart of `specParseReleaseDateE` below): acceptance means one to
three dash-separated components, each acceptable to Python's `int`,
forming a valid calendar date, with missing month and day defaulting
to 1. -/
def specParseReleaseDate : Option String → Option PyDate
  | none => none
  | some s =>
    if s = "" then none
    else
      match (splitOnDash s.data).map pyIntChars with
      | [some y] => mkPyDate y 1 1
      | [some y, some m] => mkPyDate y m 1
      | [some y, some m, some d] => mkPyDate y m d
      | _ => none

theorem parseReleaseDate_eq_spec (raw : Option String) :
    parseReleaseDate raw = specParseReleaseDate raw := by
  cases raw with
  | none => rfl
  | some s =>
    show (if s = "" then none else parseParts (splitOnDash s.data)) = _
    unfold specParseReleaseDate
    by_cases hs : s = ""
    · simp [hs]
    · simp only [hs, ite_false]
      rcases hp : splitOnDash s.data with _ | ⟨p1, _ | ⟨p2, _ | ⟨p3, _ | rest⟩⟩⟩
      · rfl
      · cases h1 : pyIntChars p1 <;> simp [parseParts, List.map_cons, h1]
      · cases h1 : pyIntChars p1 <;> cases h2 : pyIntChars p2 <;>
          simp [parseParts, List.map_cons, h1, h2]
      · cases h1 : pyIntChars p1 <;> cases h2 : pyIntChars p2 <;>
          cases h3 : pyIntChars p3 <;> simp [parseParts, List.map_cons, h1, h2, h3]
      · simp [parseParts, List.map_cons]

theorem mkPyDate_valid {y m d : ℤ} {x : PyDate} (h : mkPyDate y m d = some x) :
    x.valid := by
  unfold mkPyDate at h
  split_ifs at h with hc
  cases Option.some.inj h
  unfold PyDate.valid
  simp only
  omega

theorem parseParts_valid {parts : List (List Char)} {x : PyDate}
    (h : parseParts parts = some x) : x.valid := by
  rcases parts with _ | ⟨p1, _ | ⟨p2, _ | ⟨p3, _ | rest⟩⟩⟩
  · exact absurd h (by simp [parseParts])
  · rw [parseParts] at h
    rcases h1 : pyIntChars p1 with _ | y <;> rw [h1] at h
    · exact absurd h (by simp)
    · exact mkPyDate_valid h
  · rw [parseParts] at h
    rcases h1 : pyIntChars p1 with _ | y <;> rw [h1] at h
    · exact absurd h (by simp)
    · rcases h2 : pyIntChars p2 with _ | m <;> rw [h2] at h
      · exact absurd h (by simp)
      · exact mkPyDate_valid h
  · rw [parseParts] at h
    rcases h1 : pyIntChars p1 with _ | y <;> rw [h1] at h
    · exact absurd h (by simp)
    · rcases h2 : pyIntChars p2 with _ | m <;> rw [h2] at h
      · exact absurd h (by simp)
      · rcases h3 : pyIntChars p3 with _ | d <;> rw [h3] at h
        · exact absurd h (by simp)
        · exact mkPyDate_valid h
  · exact absurd h (by simp [parseParts])

/-- Everything the parser accepts is a valid calendar date. -/
theorem parseReleaseDate_valid {raw : Option String} {x : PyDate}
    (h : parseReleaseDate raw = some x) : x.valid := by
  rcases raw with _ | s
  · exact absurd h (by simp [parseReleaseDate])
  · rw [show parseReleaseDate (some s)
        = (if s = "" then none else parseParts (splitOnDash s.data)) from rfl] at h
    by_cases hs : s = ""
    · rw [if_pos hs] at h
      exact absurd h (by simp)
    · rw [if_neg hs] at h
      exact parseParts_valid h

theorem digit_not_ws {c : Char} (h : c.isDigit = true) : isPyWs c = false := by
  unfold isPyWs
  by_contra hw
  rw [Bool.not_eq_false] at hw
  simp only [Bool.or_eq_true, decide_eq_true_eq] at hw
  rcases hw with ((((h1 | h1) | h1) | h1) | h1) | h1 <;>
    (subst h1; exact absurd h (by decide))

theorem dropWhile_eq_self_of {p : Char → Bool} :
    ∀ l : List Char, (∀ c ∈ l, p c = false) → l.dropWhile p = l
  | [], _ => rfl
  | c :: t, h => by
    rw [List.dropWhile_cons, h c (List.mem_cons_self c t)]
    simp

theorem stripWs_of_digits (l : List Char) (h : ∀ c ∈ l, c.isDigit = true) :
    stripWsChars l = l := by
  unfold stripWsChars
  rw [dropWhile_eq_self_of l (fun c hc => digit_not_ws (h c hc)),
    dropWhile_eq_self_of l.reverse
      (fun c hc => digit_not_ws (h c (List.mem_reverse.mp hc))),
    List.reverse_reverse]

theorem pyIntCore_digits :
    ∀ (t : List Char) (acc : ℕ), (∀ c ∈ t, c.isDigit = true) →
    pyIntCore t acc = some (t.foldl (fun a c => a * 10 + (c.toNat - 48)) acc)
  | [], acc, _ => rfl
  | c :: t, acc, h => by
    rw [pyIntCore.eq_def]
    dsimp only
    rw [if_pos (h c (List.mem_cons_self c t)), List.foldl_cons]
    exact pyIntCore_digits t _ (fun x hx => h x (List.mem_cons_of_mem c hx))

theorem pyIntDigits_digits (l : List Char) (hne : l ≠ [])
    (h : ∀ c ∈ l, c.isDigit = true) :
    pyIntDigits l = some (digitsToNat l) := by
  rcases l with _ | ⟨c, t⟩
  · exact absurd rfl hne
  · rw [pyIntDigits, if_pos (h c (List.mem_cons_self c t)),
      pyIntCore_digits t _ (fun x hx => h x (List.mem_cons_of_mem c hx))]
    simp [digitsToNat, List.foldl_cons]

theorem pyIntChars_digits (l : List Char) (hne : l ≠ [])
    (h : ∀ c ∈ l, c.isDigit = true) :
    pyIntChars l = some (digitsToNat l) := by
  rw [pyIntChars, stripWs_of_digits l h]
  rcases l with _ | ⟨c, t⟩
  · exact absurd rfl hne
  · have hc : c.isDigit = true := h c (List.mem_cons_self c t)
    have hplus : c ≠ '+' := by rintro rfl; exact absurd hc (by decide)
    have hminus : c ≠ '-' := by rintro rfl; exact absurd hc (by decide)
    unfold pyIntSigned
    split
    · next heq => exact absurd (List.cons.inj heq).1 hplus
    · next heq => exact absurd (List.cons.inj heq).1 hminus
    · rw [pyIntDigits_digits (c :: t) hne h]
      rfl

theorem splitOnDash_no_dash :
    ∀ l : List Char, '-' ∉ l → splitOnDash l = [l]
  | [], _ => rfl
  | c :: t, h => by
    have hc : ¬ c = '-' := fun hh => h (hh ▸ List.mem_cons_self c t)
    rw [splitOnDash, if_neg hc,
      splitOnDash_no_dash t (fun ht => h (List.mem_cons_of_mem c ht))]

theorem splitOnDash_append :
    ∀ (a b : List Char), '-' ∉ a →
    splitOnDash (a ++ '-' :: b) = a :: splitOnDash b
  | [], b, _ => by rw [List.nil_append, splitOnDash, if_pos rfl]
  | c :: t, b, h => by
    have hc : ¬ c = '-' := fun hh => h (hh ▸ List.mem_cons_self c t)
    rw [List.cons_append, splitOnDash, if_neg hc,
      splitOnDash_append t b (fun ht => h (List.mem_cons_of_mem c ht))]

/-- "The forms `YYYY`, `YYYY-MM`, `YYYY-MM-DD`": at most three
dash-separated components, each a non-empty run of ASCII digits. -/
def canonicalDateForm (s : String) : Bool :=
  let parts := splitOnDash s.data
  decide (parts.length ≤ 3) &&
    parts.all (fun p => !p.isEmpty && p.all (fun c => c.isDigit))

/-- Membership test for the 32-bit C `int` range (−2³¹ … 2³¹ − 1) into
which CPython converts the `date` constructor's arguments; a component
outside it makes the constructor raise `OverflowError` instead of
`ValueError`. -/
def fitsCInt (n : ℤ) : Bool :=
  decide (-2147483648 ≤ n) && decide (n < 2147483648)

/-- Exceptions arising inside `_parse_release_date`'s `try` block: a
`ValueError` (from `int` or from the `date` range checks, caught by the
handler) or an `OverflowError` (from the `date` constructor's C-int
conversion, which the handler does not catch). -/
inductive PyExc where
  | valueError
  | overflowError
deriving DecidableEq, Repr

/-- Model of `date(y, m, d)` with its exception channels explicit: the
arguments are first converted to C ints (`OverflowError` outside the
C-int range), then range-checked (`ValueError`). -/
def pyDateCtor (y m d : ℤ) : Except PyExc PyDate :=
  if fitsCInt y && fitsCInt m && fitsCInt d then
    if 1 ≤ y ∧ y ≤ 9999 ∧ 1 ≤ m ∧ m ≤ 12 ∧ 1 ≤ d ∧
        d ≤ (daysInMonth y.toNat m.toNat : ℤ) then
      Except.ok ⟨y.toNat, m.toNat, d.toNat⟩
    else Except.error PyExc.valueError
  else Except.error PyExc.overflowError

/-- Evaluation of `return date(...)` under the surrounding
`except ValueError` handler: a caught `ValueError` falls through to
`return None`, any other exception propagates to the caller. -/
def catchValueError : Except PyExc PyDate → Except PyExc (Option PyDate)
  | Except.ok dt => Except.ok (some dt)
  | Except.error PyExc.valueError => Except.ok none
  | Except.error PyExc.overflowError => Except.error PyExc.overflowError

/-- Error-faithful model of the `try` block of `_parse_release_date`:
dash-separated parts are fed through `int` (a failure there is a caught
`ValueError`, hence a fall-through to `return None`) and then the `date`
constructor; an unhandled part count falls through to `return None`. -/
def partsToDate : List (List Char) → Except PyExc (Option PyDate)
  | [p] =>
    (match pyIntChars p with
     | some y => catchValueError (pyDateCtor y 1 1)
     | none => Except.ok none)
  | [p1, p2] =>
    (match pyIntChars p1, pyIntChars p2 with
     | some y, some m => catchValueError (pyDateCtor y m 1)
     | _, _ => Except.ok none)
  | [p1, p2, p3] =>
    (match pyIntChars p1, pyIntChars p2, pyIntChars p3 with
     | some y, some m, some d => catchValueError (pyDateCtor y m d)
     | _, _, _ => Except.ok none)
  | _ => Except.ok none

/-- Error-faithful model of `_parse_release_date(raw)`: `Except.error` is
an exception escaping to the caller. -/
def parseReleaseDateE : Option String → Except PyExc (Option PyDate)
  | none => Except.ok none
  | some s =>
    if s = "" then Except.ok none else partsToDate (splitOnDash s.data)

/-- Modelled from the spec (§4.6, amended): integer components are
accepted exactly when they fit the C-int range and form a valid calendar
date (`mkPyDate`); a component outside that range raises `OverflowError`
to the caller. -/
def specDateOutcome (y m d : ℤ) : Except PyExc (Option PyDate) :=
  if fitsCInt y && fitsCInt m && fitsCInt d then Except.ok (mkPyDate y m d)
  else Except.error PyExc.overflowError

/-- Modelled from the spec (§4.6, amended): a falsy value yields `None`;
otherwise the dash-split must give one to three components, each
acceptable to Python's `int`, whose joint outcome is `specDateOutcome`
(missing month and day defaulting to 1); any other split yields `None`. -/
def specParseReleaseDateE : Option String → Except PyExc (Option PyDate)
  | none => Except.ok none
  | some s =>
    if s = "" then Except.ok none
    else
      match (splitOnDash s.data).map pyIntChars with
      | [some y] => specDateOutcome y 1 1
      | [some y, some m] => specDateOutcome y m 1
      | [some y, some m, some d] => specDateOutcome y m d
      | _ => Except.ok none

/-- Collapse of an exception outcome to the value the total model
returns (`none` for an escaping exception). -/
def totalize : Except PyExc (Option PyDate) → Option PyDate
  | Except.ok o => o
  | Except.error _ => none

/-- Predicate for ASCII-only strings: the fragment on which the `int()`
model is exact (Python's `int` additionally accepts Unicode digits and
whitespace). -/
def asciiStr (s : String) : Prop :=
  ∀ c ∈ s.data, c.toNat < 128

instance (s : String) : Decidable (asciiStr s) := by
  unfold asciiStr; infer_instance

theorem daysInMonth_le (y m : ℕ) : daysInMonth y m ≤ 31 := by
  unfold daysInMonth
  split_ifs <;> omega

theorem fits_of_valid {y m d : ℤ}
    (h : 1 ≤ y ∧ y ≤ 9999 ∧ 1 ≤ m ∧ m ≤ 12 ∧ 1 ≤ d ∧
        d ≤ (daysInMonth y.toNat m.toNat : ℤ)) :
    (fitsCInt y && fitsCInt m && fitsCInt d) = true := by
  have hle := daysInMonth_le y.toNat m.toNat
  unfold fitsCInt
  simp only [Bool.and_eq_true, decide_eq_true_eq]
  omega

theorem catch_pyDateCtor (y m d : ℤ) :
    catchValueError (pyDateCtor y m d) = specDateOutcome y m d := by
  unfold pyDateCtor specDateOutcome mkPyDate
  split_ifs <;> rfl

theorem specDateOutcome_ok {y m d : ℤ} {o : Option PyDate}
    (h : specDateOutcome y m d = Except.ok o) : mkPyDate y m d = o := by
  unfold specDateOutcome at h
  split_ifs at h with hf
  exact Except.ok.inj h

theorem specDateOutcome_error {y m d : ℤ} {e : PyExc}
    (h : specDateOutcome y m d = Except.error e) :
    e = PyExc.overflowError := by
  unfold specDateOutcome at h
  split_ifs at h with hf
  cases h
  rfl

theorem totalize_specDateOutcome (y m d : ℤ) :
    totalize (specDateOutcome y m d) = mkPyDate y m d := by
  unfold specDateOutcome
  split_ifs with hf
  · rfl
  · show (none : Option PyDate) = mkPyDate y m d
    rw [mkPyDate, if_neg (fun hv => hf (fits_of_valid hv))]

theorem parseReleaseDateE_eq_spec (raw : Option String) :
    parseReleaseDateE raw = specParseReleaseDateE raw := by
  cases raw with
  | none => rfl
  | some s =>
    show (if s = "" then Except.ok none
          else partsToDate (splitOnDash s.data)) = _
    unfold specParseReleaseDateE
    by_cases hs : s = ""
    · simp [hs]
    · simp only [hs, ite_false]
      rcases hp : splitOnDash s.data with _ | ⟨p1, _ | ⟨p2, _ | ⟨p3, _ | rest⟩⟩⟩
      · rfl
      · cases h1 : pyIntChars p1 <;>
          simp [partsToDate, List.map_cons, h1, catch_pyDateCtor]
      · cases h1 : pyIntChars p1 <;> cases h2 : pyIntChars p2 <;>
          simp [partsToDate, List.map_cons, h1, h2, catch_pyDateCtor]
      · cases h1 : pyIntChars p1 <;> cases h2 : pyIntChars p2 <;>
          cases h3 : pyIntChars p3 <;>
          simp [partsToDate, List.map_cons, h1, h2, h3, catch_pyDateCtor]
      · simp [partsToDate, List.map_cons]

theorem spec_totalize (raw : Option String) :
    specParseReleaseDate raw = totalize (specParseReleaseDateE raw) := by
  rcases raw with _ | s
  · rfl
  · unfold specParseReleaseDate specParseReleaseDateE
    by_cases hs : s = ""
    · simp [hs, totalize]
    · simp only [hs, ite_false]
      generalize (splitOnDash s.data).map pyIntChars = l
      rcases l with _ | ⟨_ | y, _ | ⟨_ | m, _ | ⟨_ | d, _ | ⟨o4, rest⟩⟩⟩⟩ <;>
        first
          | rfl
          | exact (totalize_specDateOutcome _ _ _).symm

/-- Whenever the error-faithful model returns or raises, collapsing the
raise to `none` gives exactly the total model the lookup uses. -/
theorem parseReleaseDate_totalize (raw : Option String) :
    parseReleaseDate raw = totalize (parseReleaseDateE raw) := by
  rw [parseReleaseDate_eq_spec, parseReleaseDateE_eq_spec, spec_totalize]

theorem specParseReleaseDateE_error {raw : Option String} {e : PyExc}
    (h : specParseReleaseDateE raw = Except.error e) :
    e = PyExc.overflowError := by
  rcases raw with _ | s
  · cases h
  · rw [show specParseReleaseDateE (some s)
        = (if s = "" then Except.ok none
           else
             match (splitOnDash s.data).map pyIntChars with
             | [some y] => specDateOutcome y 1 1
             | [some y, some m] => specDateOutcome y m 1
             | [some y, some m, some d] => specDateOutcome y m d
             | _ => Except.ok none) from rfl] at h
    by_cases hs : s = ""
    · rw [if_pos hs] at h
      cases h
    · rw [if_neg hs] at h
      generalize (splitOnDash s.data).map pyIntChars = l at h
      rcases l with _ | ⟨_ | y, _ | ⟨_ | m, _ | ⟨_ | d, _ | ⟨o4, rest⟩⟩⟩⟩ <;>
        first
          | cases h
          | exact specDateOutcome_error h

/-! ## The title normalizer (`release_date.py`, `_strip_edition_suffixes`,
`_title_variants`)

The three `_BRACKET_PATTERNS` each match (leftmost-first, non-overlapping,
as `re.sub` does) optional whitespace, an opening bracket, a shortest
bracket-free segment up to the matching closer — `[^)]*(?:KW)[^)]*\)`
always stops at the first closer — containing an edition keyword
case-insensitively, and the closer.  `_SUFFIX_PATTERN` is anchored at the
end of the string: since its body excludes the separator characters, it
can only fire at the *last* separator, with the greedy `\s*` absorbing
the whitespace run immediately before it.  The `while changed` loop runs
the four substitutions until a whole round changes nothing; every change
strictly deletes characters, so `length + 1` rounds always suffice and a
round keeping the length fixed is a round that changed nothing (the fuel
encodes exactly the Python termination condition).
-/

/-- The `_EDITION_KEYWORDS`, lowercase. -/
def editionKeywords : List String :=
  ["deluxe", "expanded", "extended", "edition", "version", "remaster",
   "remastered", "anniversary", "bonus", "special", "super"]

/-- Case-insensitive test for an edition keyword occurring in a segment. -/
def containsKeyword (seg : List Char) : Bool :=
  editionKeywords.any (fun kw => hasSubChars kw.data (seg.map Char.toLower))

/-- Attempt one bracket-pattern match at the head of `s`: `\s*`, the
opening bracket, a closer-free keyword-carrying segment, the closer.
Returns the remainder after the match. -/
def tryBracket (oC cC : Char) (s : List Char) : Option (List Char) :=
  match s.dropWhile isPyWs with
  | [] => none
  | o :: after =>
    if o = oC then
      match after.dropWhile (fun c => !(c = cC : Bool)) with
      | [] => none
      | _ :: rem =>
        if containsKeyword (after.takeWhile (fun c => !(c = cC : Bool))) then
          some rem
        else none
    else none

/-- `re.sub(pattern, "", s)` for one bracket pattern: scan left to right,
deleting each non-overlapping match.  `fuel ≥ s.length` always suffices
(each step consumes at least one character). -/
def subBracketAux (oC cC : Char) : ℕ → List Char → List Char
  | 0, s => s
  | _ + 1, [] => []
  | fuel + 1, c :: t =>
    match tryBracket oC cC (c :: t) with
    | some rem => subBracketAux oC cC fuel rem
    | none => c :: subBracketAux oC cC fuel t

def subBracket (oC cC : Char) (s : List Char) : List Char :=
  subBracketAux oC cC s.length s

/-- The separator class `[-:–—]` of `_SUFFIX_PATTERN`. -/
def isSep (c : Char) : Bool :=
  c = '-' || c = ':' || c = '–' || c = '—'

/-- `re.sub(_SUFFIX_PATTERN, "", s)`: the pattern is `$`-anchored and its
body excludes separators, so it matches iff the segment after the last
separator carries a keyword; the deletion extends left over the
whitespace run immediately before that separator (greedy `\s*`). -/
def suffixSub (s : List Char) : List Char :=
  if s.any isSep then
    if containsKeyword (s.reverse.takeWhile (fun c => !isSep c)).reverse then
      (((s.reverse.dropWhile (fun c => !isSep c)).drop 1).dropWhile isPyWs).reverse
    else s
  else s

/-- `re.sub(r"\s{2,}", " ", s)`: replace every maximal whitespace run of
length ≥ 2 by a single space (a lone whitespace char is kept verbatim). -/
def collapseWsAux : ℕ → List Char → List Char
  | 0, s => s
  | _ + 1, [] => []
  | fuel + 1, c :: t =>
    if isPyWs c then
      if t.takeWhile isPyWs = [] then c :: collapseWsAux fuel t
      else ' ' :: collapseWsAux fuel (t.dropWhile isPyWs)
    else c :: collapseWsAux fuel t

def collapseWs (s : List Char) : List Char := collapseWsAux s.length s

/-- `str.strip(" -:–—")`. -/
def isStripChar (c : Char) : Bool :=
  c = ' ' || c = '-' || c = ':' || c = '–' || c = '—'

def stripEnds (s : List Char) : List Char :=
  ((s.dropWhile isStripChar).reverse.dropWhile isStripChar).reverse

/-- One iteration of the `while changed` loop: the three bracket patterns
(parentheses, square brackets, braces) then the suffix pattern. -/
def subRound (s : List Char) : List Char :=
  suffixSub (subBracket '{' '}' (subBracket '[' ']' (subBracket '(' ')' s)))

/-- The `while changed` loop; a round that deletes nothing is the last. -/
def stripLoopAux : ℕ → List Char → List Char
  | 0, s => s
  | fuel + 1, s =>
    let s2 := subRound s
    if s2.length < s.length then stripLoopAux fuel s2 else s2

/-- `_strip_edition_suffixes(title)`. -/
def stripEditionSuffixes (title : String) : String :=
  String.mk (stripEnds (collapseWs (stripLoopAux (title.data.length + 1) title.data)))

/-- `_title_variants(album)`. -/
def titleVariants (album : String) : List String :=
  let pick := fun (acc : List String × List String) (cand : String) =>
    if cand = "" then acc
    else if acc.2.contains (pyLower cand) then acc
    else (acc.1 ++ [cand], acc.2 ++ [pyLower cand])
  let vs := (pick (pick (([], []) : List String × List String) (pyStrip album))
      (pyStrip (stripEditionSuffixes album))).1
  if vs = [] then [album] else vs

theorem all_ws_of_stripWs_nil {l : List Char} (h : stripWsChars l = []) :
    ∀ c ∈ l, isPyWs c = true := by
  unfold stripWsChars at h
  rw [List.reverse_eq_nil_iff, List.dropWhile_eq_nil_iff] at h
  intro c hc
  have hsplit : l.takeWhile isPyWs ++ l.dropWhile isPyWs = l :=
    List.takeWhile_append_dropWhile _ _
  rw [← hsplit] at hc
  rcases List.mem_append.mp hc with hc1 | hc2
  · exact List.mem_takeWhile_imp hc1
  · exact h c (List.mem_reverse.mpr hc2)

theorem stripWs_of_all_ws {l : List Char} (h : ∀ c ∈ l, isPyWs c = true) :
    stripWsChars l = [] := by
  unfold stripWsChars
  rw [List.dropWhile_eq_nil_iff.mpr h]
  rfl

theorem ws_not_sep {c : Char} (h : isPyWs c = true) : isSep c = false := by
  unfold isPyWs at h
  simp only [Bool.or_eq_true, decide_eq_true_eq] at h
  rcases h with ((((h1 | h1) | h1) | h1) | h1) | h1 <;> (subst h1; decide)

theorem subBracketAux_ws (oC cC : Char) :
    ∀ (fuel : ℕ) (s : List Char), (∀ c ∈ s, isPyWs c = true) →
    subBracketAux oC cC fuel s = s
  | 0, _, _ => rfl
  | _ + 1, [], _ => rfl
  | fuel + 1, c :: t, h => by
    have htry : tryBracket oC cC (c :: t) = none := by
      unfold tryBracket
      rw [List.dropWhile_eq_nil_iff.mpr h]
    rw [subBracketAux.eq_def]
    dsimp only
    rw [htry]
    rw [subBracketAux_ws oC cC fuel t
      (fun x hx => h x (List.mem_cons_of_mem c hx))]

theorem subBracket_ws (oC cC : Char) (s : List Char)
    (h : ∀ c ∈ s, isPyWs c = true) : subBracket oC cC s = s :=
  subBracketAux_ws oC cC s.length s h

theorem suffixSub_ws (s : List Char) (h : ∀ c ∈ s, isPyWs c = true) :
    suffixSub s = s := by
  have hany : s.any isSep = false := by
    rw [List.any_eq_false]
    intro c hc
    simp [ws_not_sep (h c hc)]
  unfold suffixSub
  rw [hany]
  simp

theorem subRound_ws (s : List Char) (h : ∀ c ∈ s, isPyWs c = true) :
    subRound s = s := by
  unfold subRound
  rw [subBracket_ws _ _ s h, subBracket_ws _ _ s h, subBracket_ws _ _ s h,
    suffixSub_ws s h]

theorem stripLoopAux_ws (fuel : ℕ) (s : List Char)
    (h : ∀ c ∈ s, isPyWs c = true) : stripLoopAux fuel s = s := by
  cases fuel with
  | zero => rfl
  | succ n =>
    rw [stripLoopAux.eq_def]
    dsimp only
    rw [subRound_ws s h]
    simp

theorem mem_collapseWsAux :
    ∀ (fuel : ℕ) (s : List Char) (c : Char), c ∈ collapseWsAux fuel s →
    c ∈ s ∨ c = ' '
  | 0, _, _, hc => Or.inl hc
  | _ + 1, [], c, hc => absurd hc (List.not_mem_nil c)
  | fuel + 1, x :: t, c, hc => by
    rw [collapseWsAux.eq_def] at hc
    dsimp only at hc
    by_cases hx : isPyWs x = true
    · rw [if_pos hx] at hc
      by_cases hrun : t.takeWhile isPyWs = []
      · rw [if_pos hrun] at hc
        rcases List.mem_cons.mp hc with rfl | hc'
        · exact Or.inl (List.mem_cons_self _ _)
        · rcases mem_collapseWsAux fuel t c hc' with h1 | h1
          · exact Or.inl (List.mem_cons_of_mem _ h1)
          · exact Or.inr h1
      · rw [if_neg hrun] at hc
        rcases List.mem_cons.mp hc with rfl | hc'
        · exact Or.inr rfl
        · rcases mem_collapseWsAux fuel (t.dropWhile isPyWs) c hc' with h1 | h1
          · exact Or.inl (List.mem_cons_of_mem _
              ((List.dropWhile_sublist isPyWs).subset h1))
          · exact Or.inr h1
    · rw [if_neg hx] at hc
      rcases List.mem_cons.mp hc with rfl | hc'
      · exact Or.inl (List.mem_cons_self _ _)
      · rcases mem_collapseWsAux fuel t c hc' with h1 | h1
        · exact Or.inl (List.mem_cons_of_mem _ h1)
        · exact Or.inr h1

theorem mem_stripEnds {c : Char} {l : List Char} (h : c ∈ stripEnds l) :
    c ∈ l := by
  unfold stripEnds at h
  have h1 := List.mem_reverse.mp h
  have h2 := (List.dropWhile_sublist isStripChar).subset h1
  have h3 := List.mem_reverse.mp h2
  exact (List.dropWhile_sublist isStripChar).subset h3

/-- Cleaning a whitespace-only title and trimming yields the empty
string: when the trimmed original is empty, so is the cleaned variant. -/
theorem pyStrip_stripEdition_of_ws (album : String)
    (h : ∀ c ∈ album.data, isPyWs c = true) :
    pyStrip (stripEditionSuffixes album) = "" := by
  unfold stripEditionSuffixes pyStrip
  rw [stripLoopAux_ws _ album.data h]
  have hall : ∀ c ∈ stripEnds (collapseWs album.data), isPyWs c = true := by
    intro c hc
    rcases mem_collapseWsAux album.data.length album.data c
        (mem_stripEnds hc) with h1 | h1
    · exact h c h1
    · subst h1; rfl
  rw [show (String.mk (stripEnds (collapseWs album.data))).data
      = stripEnds (collapseWs album.data) from rfl]
  rw [stripWs_of_all_ws hall]

theorem pyStrip_empty_all_ws {s : String} (h : pyStrip s = "") :
    ∀ c ∈ s.data, isPyWs c = true := by
  unfold pyStrip at h
  have : stripWsChars s.data = [] := by
    have := congrArg String.data h
    simpa using this
  exact all_ws_of_stripWs_nil this

/-- Case analysis of `_title_variants` when the trimmed original is
non-empty: the trimmed original comes first, and the cleaned variant is
appended exactly when it is non-empty and case-insensitively different. -/
theorem titleVariants_of_ne (album : String) (h1 : pyStrip album ≠ "") :
    titleVariants album =
      if pyStrip (stripEditionSuffixes album) ≠ "" ∧
          pyLower (pyStrip (stripEditionSuffixes album)) ≠ pyLower (pyStrip album)
      then [pyStrip album, pyStrip (stripEditionSuffixes album)]
      else [pyStrip album] := by
  by_cases h2 : pyStrip (stripEditionSuffixes album) = ""
  · simp [titleVariants, h1, h2]
  · by_cases h3 : pyLower (pyStrip (stripEditionSuffixes album))
        = pyLower (pyStrip album)
    · simp [titleVariants, h1, h2, h3, List.contains]
    · simp [titleVariants, h1, h2, h3, List.contains]

/-- When the trimmed original is empty the cleaned variant is empty too,
and the original is returned verbatim as the sole variant. -/
theorem titleVariants_of_empty (album : String) (h : pyStrip album = "") :
    pyStrip (stripEditionSuffixes album) = "" ∧ titleVariants album = [album] := by
  have hws := pyStrip_empty_all_ws h
  have h2 := pyStrip_stripEdition_of_ws album hws
  exact ⟨h2, by simp [titleVariants, h, h2]⟩

theorem titleVariants_ne_nil (album : String) : titleVariants album ≠ [] := by
  by_cases h1 : pyStrip album = ""
  · rw [(titleVariants_of_empty album h1).2]
    simp
  · rw [titleVariants_of_ne album h1]
    split_ifs <;> simp

theorem titleVariants_lower_nodup (album : String) :
    ((titleVariants album).map pyLower).Nodup := by
  by_cases h1 : pyStrip album = ""
  · rw [(titleVariants_of_empty album h1).2]
    simp
  · rw [titleVariants_of_ne album h1]
    split_ifs with h
    · simp only [List.map_cons, List.map_nil, List.nodup_cons, List.mem_cons]
      refine ⟨?_, by simp⟩
      intro hc
      rcases hc with hc | hc
      · exact h.2 hc.symm
      · exact absurd hc (List.not_mem_nil _)
    · simp

/-! ## Release lookup with cache (`release_date.py`, `_perform_lookup`,
`lookup_release`)

The MusicBrainz endpoint is abstracted into a function `query` from
(title, artist) to the parsed `release-groups` list of the JSON response;
`_CACHE` is an explicit association list threaded through the calls
(CPython dict assignment = first-match-wins prepend here), and the third
component of the result records which (variant, artist) pairs were
actually sent to the external service.
-/

structure CatalogItem where
  id : Option String
  firstReleaseDate : Option String
deriving DecidableEq

abbrev LookupResult := Option String × Option PyDate

abbrev Cache := List ((String × String) × LookupResult)

def cacheFind (c : Cache) (k : String × String) : Option LookupResult :=
  (c.find? (fun p => decide (p.1 = k))).map (fun p => p.2)

def cacheInsert (c : Cache) (k : String × String) (v : LookupResult) : Cache :=
  (k, v) :: c

/-- One iteration of the `for item in payload.get("release-groups", [])`
loop: keep the earliest parseable date, first encountered winning ties. -/
def lookupStep (best : LookupResult) (item : CatalogItem) : LookupResult :=
  match parseReleaseDate item.firstReleaseDate with
  | some d =>
    match best.2 with
    | none => (item.id, some d)
    | some bd => if dateLtB d bd then (item.id, some d) else best
  | none => best

/-- `_perform_lookup(session, album, artist)`. -/
def performLookup (query : String → String → List CatalogItem)
    (album artist : String) : LookupResult :=
  (query album artist).foldl lookupStep (none, none)

/-- The `for candidate in _title_variants(album)` loop of
`lookup_release`: returns (best_result, cache, performed queries). -/
def lookupVariants (query : String → String → List CatalogItem)
    (artist : String) :
    List String → Cache → LookupResult → LookupResult × Cache × List String
  | [], cache, best => (best, cache, [])
  | v :: rest, cache, best =>
    match cacheFind cache (pyLower v, pyLower artist) with
    | some r =>
      if r.2.isSome then (r, cache, [])
      else lookupVariants query artist rest cache
        (if best = (none, none) then r else best)
    | none =>
      let r := performLookup query v artist
      let cache2 := cacheInsert cache (pyLower v, pyLower artist) r
      if r.2.isSome then (r, cache2, [v])
      else
        let out := lookupVariants query artist rest cache2
          (if best = (none, none) then r else best)
        (out.1, out.2.1, v :: out.2.2)

/-- `lookup_release(album, artist)`. -/
def lookupRelease (query : String → String → List CatalogItem)
    (cache : Cache) (album artist : String) :
    LookupResult × Cache × List String :=
  match cacheFind cache (pyLower album, pyLower artist) with
  | some r => (r, cache, [])
  | none =>
    let out := lookupVariants query artist (titleVariants album) cache
      (none, none)
    (out.1, cacheInsert out.2.1 (pyLower album, pyLower artist) out.1,
      out.2.2)

/-- §4.6 cache-shape invariant: an entry with no date has no id. -/
def CacheInv (c : Cache) : Prop :=
  ∀ kv ∈ c, kv.2.2 = none → kv.2.1 = none

/-- The result a variant resolves to against a fixed cache: the cached
value if present, otherwise the external lookup's answer. -/
def specResolve (query : String → String → List CatalogItem)
    (cache : Cache) (artist v : String) : LookupResult :=
  match cacheFind cache (pyLower v, pyLower artist) with
  | some r => r
  | none => performLookup query v artist

theorem cacheFind_insert_self (c : Cache) (k : String × String)
    (v : LookupResult) : cacheFind (cacheInsert c k v) k = some v := by
  unfold cacheFind cacheInsert
  rw [List.find?_cons_of_pos _ (by simp)]
  rfl

theorem cacheFind_insert_ne (c : Cache) (k k2 : String × String)
    (v : LookupResult) (h : k2 ≠ k) :
    cacheFind (cacheInsert c k v) k2 = cacheFind c k2 := by
  unfold cacheFind cacheInsert
  rw [List.find?_cons_of_neg _ (by simp [Ne.symm h])]

theorem cacheFind_some_mem {c : Cache} {k : String × String}
    {r : LookupResult} (h : cacheFind c k = some r) :
    ∃ kv ∈ c, kv.1 = k ∧ kv.2 = r := by
  unfold cacheFind at h
  rcases Option.map_eq_some'.mp h with ⟨kv, hfind, hsnd⟩
  have hp := List.find?_some hfind
  simp only [decide_eq_true_eq] at hp
  exact ⟨kv, List.mem_of_find?_eq_some hfind, hp, hsnd⟩

theorem lookupStep_none_eq {it : CatalogItem} (b : LookupResult)
    (hp : parseReleaseDate it.firstReleaseDate = none) :
    lookupStep b it = b := by
  unfold lookupStep
  rw [hp]

theorem lookupStep_snd_ne_none {it : CatalogItem} (b : LookupResult)
    {d : PyDate} (hp : parseReleaseDate it.firstReleaseDate = some d) :
    (lookupStep b it).2 ≠ none := by
  unfold lookupStep
  rw [hp]
  dsimp only
  rcases hb : b.2 with _ | bd
  · simp
  · dsimp only
    split_ifs
    · simp
    · rw [hb]
      simp

/-- If the candidate fold ends with no date, nothing was parseable and
the result is still the initial value. -/
theorem foldl_lookupStep_none :
    ∀ (items : List CatalogItem) (b : LookupResult),
    (items.foldl lookupStep b).2 = none →
    items.foldl lookupStep b = b ∧
      ∀ it ∈ items, parseReleaseDate it.firstReleaseDate = none
  | [], b, _ => ⟨rfl, by simp⟩
  | it :: rest, b, h => by
    rw [List.foldl_cons] at h ⊢
    obtain ⟨hfold, hall⟩ := foldl_lookupStep_none rest (lookupStep b it) h
    rw [hfold] at h
    have hpnone : parseReleaseDate it.firstReleaseDate = none := by
      rcases hp : parseReleaseDate it.firstReleaseDate with _ | d
      · rfl
      · exact absurd h (lookupStep_snd_ne_none b hp)
    have hstep := lookupStep_none_eq b hpnone
    rw [hstep]
    rw [hstep] at hfold
    refine ⟨hfold, ?_⟩
    intro x hx
    rcases List.mem_cons.mp hx with rfl | hx'
    · exact hpnone
    · exact hall x hx'

/-- `_perform_lookup` never returns an id without a date. -/
theorem performLookup_none (query : String → String → List CatalogItem)
    (album artist : String)
    (h : (performLookup query album artist).2 = none) :
    performLookup query album artist = (none, none) :=
  (foldl_lookupStep_none _ _ h).1

theorem specResolve_none (query : String → String → List CatalogItem)
    (cache : Cache) (artist v : String) (hinv : CacheInv cache)
    (h : (specResolve query cache artist v).2 = none) :
    specResolve query cache artist v = (none, none) := by
  unfold specResolve at h ⊢
  rcases hcf : cacheFind cache (pyLower v, pyLower artist) with _ | r
  · rw [hcf] at h
    exact performLookup_none query v artist h
  · rw [hcf] at h
    obtain ⟨kv, hmem, hfst, hsnd⟩ := cacheFind_some_mem hcf
    have := hinv kv hmem (by rw [hsnd]; exact h)
    rw [hsnd] at this
    cases hr : r
    rw [hr] at h this
    simp only at h this
    rw [this, h]

theorem dateLt_irrefl (a : PyDate) : ¬ dateLt a a := by
  unfold dateLt; omega

/-- The candidate chosen by `_perform_lookup` carries the earliest
parseable first-release date, and among candidates with that date the
first encountered wins (the strict `<` in the code never replaces an
equal date). -/
theorem foldl_lookupStep_some :
    ∀ (items : List CatalogItem) (d : PyDate),
    (items.foldl lookupStep (none, none)).2 = some d →
    (∀ it ∈ items, ∀ d2, parseReleaseDate it.firstReleaseDate = some d2 →
      ¬ dateLt d2 d) ∧
    ∃ pre it post, items = pre ++ it :: post ∧
      parseReleaseDate it.firstReleaseDate = some d ∧
      (items.foldl lookupStep (none, none)).1 = it.id ∧
      ∀ x ∈ pre, ∀ dx, parseReleaseDate x.firstReleaseDate = some dx →
        dateLt d dx := by
  intro items
  induction items using List.reverseRecOn with
  | nil => intro d h; simp [List.foldl_nil] at h
  | append_singleton init x ih =>
    intro d h
    rw [List.foldl_append, List.foldl_cons, List.foldl_nil] at h ⊢
    set b := init.foldl lookupStep ((none, none) : LookupResult) with hb
    rcases hp : parseReleaseDate x.firstReleaseDate with _ | dx
    · rw [lookupStep_none_eq b hp] at h ⊢
      obtain ⟨hmin, pre, it, post, hdec, hit, hid, hpre⟩ := ih d h
      refine ⟨?_, pre, it, post ++ [x], ?_, hit, hid, hpre⟩
      · intro y hy d2 hy2
        rcases List.mem_append.mp hy with hy' | hy'
        · exact hmin y hy' d2 hy2
        · rw [List.mem_singleton] at hy'
          subst hy'
          rw [hp] at hy2
          cases hy2
      · rw [hdec]
        simp
    · rcases hb2 : b.2 with _ | bd
      · obtain ⟨hbeq, hallnone⟩ := foldl_lookupStep_none init (none, none) hb2
        have hstep : lookupStep b x = (x.id, some dx) := by
          unfold lookupStep
          rw [hp]
          dsimp only
          rw [hb2]
        rw [hstep] at h ⊢
        have hd : dx = d := Option.some.inj h
        subst hd
        refine ⟨?_, init, x, [], by simp, hp, rfl, ?_⟩
        · intro y hy d2 hy2
          rcases List.mem_append.mp hy with hy' | hy'
          · rw [hallnone y hy'] at hy2
            cases hy2
          · rw [List.mem_singleton] at hy'
            subst hy'
            rw [hp] at hy2
            cases Option.some.inj hy2
            exact dateLt_irrefl dx
        · intro y hy dy hy2
          rw [hallnone y hy] at hy2
          cases hy2
      · by_cases hlt : dateLtB dx bd = true
        · have hstep : lookupStep b x = (x.id, some dx) := by
            unfold lookupStep
            rw [hp]
            dsimp only
            rw [hb2]
            dsimp only
            rw [if_pos hlt]
          rw [hstep] at h ⊢
          have hd : dx = d := Option.some.inj h
          subst hd
          have hdxbd : dateLt dx bd := of_decide_eq_true hlt
          obtain ⟨hmin, pre, it, post, hdec, hit, hid, hpre⟩ := ih bd hb2
          refine ⟨?_, init, x, [], by simp, hp, rfl, ?_⟩
          · intro y hy d2 hy2
            rcases List.mem_append.mp hy with hy' | hy'
            · intro hcon
              exact hmin y hy' d2 hy2 (dateLt_trans hcon hdxbd)
            · rw [List.mem_singleton] at hy'
              subst hy'
              rw [hp] at hy2
              cases Option.some.inj hy2
              exact dateLt_irrefl dx
          · intro y hy dy hy2
            have hny : ¬ dateLt dy bd := hmin y hy dy hy2
            rcases dateLt_total dx dy with hc | hc | hc
            · exact hc
            · subst hc
              exact absurd hdxbd hny
            · exact absurd (dateLt_trans hc hdxbd) hny
        · have hstep : lookupStep b x = b := by
            unfold lookupStep
            rw [hp]
            dsimp only
            rw [hb2]
            dsimp only
            rw [if_neg hlt]
          rw [hstep] at h ⊢
          have hbd : bd = d := by
            rw [hb2] at h
            exact Option.some.inj h
          subst hbd
          obtain ⟨hmin, pre, it, post, hdec, hit, hid, hpre⟩ := ih bd hb2
          refine ⟨?_, pre, it, post ++ [x], ?_, hit, hid, hpre⟩
          · intro y hy d2 hy2
            rcases List.mem_append.mp hy with hy' | hy'
            · exact hmin y hy' d2 hy2
            · rw [List.mem_singleton] at hy'
              subst hy'
              rw [hp] at hy2
              cases Option.some.inj hy2
              exact fun hcon => hlt (decide_eq_true hcon)
          · rw [hdec]
            simp

theorem find?_congr_mem {α : Type} {p q : α → Bool} :
    ∀ l : List α, (∀ x ∈ l, p x = q x) → l.find? p = l.find? q
  | [], _ => rfl
  | x :: t, h => by
    rcases hp : p x with _ | _
    · rw [List.find?_cons_of_neg _ (by simp [hp]),
        List.find?_cons_of_neg _ (by simp [← h x (List.mem_cons_self _ _), hp]),
        find?_congr_mem t (fun y hy => h y (List.mem_cons_of_mem x hy))]
    · rw [List.find?_cons_of_pos _ (by simp [hp]),
        List.find?_cons_of_pos _ (by simp [← h x (List.mem_cons_self _ _), hp])]

theorem specResolve_insert_ne (query : String → String → List CatalogItem)
    (cache : Cache) (artist v w : String) (r : LookupResult)
    (hne : pyLower w ≠ pyLower v) :
    specResolve query (cacheInsert cache (pyLower v, pyLower artist) r) artist w
      = specResolve query cache artist w := by
  unfold specResolve
  rw [cacheFind_insert_ne _ _ _ _
    (fun hh => hne (congrArg Prod.fst hh))]

theorem cached_nodate_eq_none {cache : Cache} {k : String × String}
    {r : LookupResult} (hinv : CacheInv cache) (hcf : cacheFind cache k = some r)
    (h2 : r.2.isSome = false) : r = (none, none) := by
  obtain ⟨kv, hmem, _, hsnd⟩ := cacheFind_some_mem hcf
  have hnone : r.2 = none := by
    rcases hr2 : r.2 with _ | d
    · rfl
    · rw [hr2] at h2
      simp at h2
  have h1 := hinv kv hmem (by rw [hsnd]; exact hnone)
  rw [hsnd] at h1
  cases hr : r
  rw [hr] at h1 hnone
  simp only at h1 hnone
  rw [h1, hnone]

/-- Full characterization of the variant loop, started (as the code
starts it) with `best_result = (None, None)` on a cache satisfying the
§4.6 invariant: the answer is the resolution of the first variant whose
resolution carries a date, or `(None, None)`; the invariant is preserved;
external queries are performed exactly for uncached variants up to that
point, each queried variant's result is cached, and no other cache key
changes. -/
theorem lookupVariants_char (query : String → String → List CatalogItem)
    (artist : String) :
    ∀ (vs : List String) (cache : Cache), CacheInv cache →
    (vs.map pyLower).Nodup →
    (lookupVariants query artist vs cache (none, none)).1 =
      (match vs.find? (fun v => (specResolve query cache artist v).2.isSome) with
       | some v => specResolve query cache artist v
       | none => (none, none)) ∧
    CacheInv (lookupVariants query artist vs cache (none, none)).2.1 ∧
    (∀ v ∈ (lookupVariants query artist vs cache (none, none)).2.2,
      v ∈ vs ∧ cacheFind cache (pyLower v, pyLower artist) = none) ∧
    (∀ v ∈ (lookupVariants query artist vs cache (none, none)).2.2,
      cacheFind (lookupVariants query artist vs cache (none, none)).2.1
        (pyLower v, pyLower artist) = some (performLookup query v artist)) ∧
    (∀ k, (∀ v ∈ vs, k ≠ (pyLower v, pyLower artist)) →
      cacheFind (lookupVariants query artist vs cache (none, none)).2.1 k =
        cacheFind cache k) := by
  intro vs
  induction vs with
  | nil =>
    intro cache hinv _
    exact ⟨rfl, hinv, by simp [lookupVariants], by simp [lookupVariants],
      fun k _ => rfl⟩
  | cons v rest ih =>
    intro cache hinv hnd
    rw [List.map_cons, List.nodup_cons] at hnd
    obtain ⟨hnd1, hndr⟩ := hnd
    have hkne : ∀ w ∈ rest,
        (pyLower w, pyLower artist) ≠ (pyLower v, pyLower artist) := by
      intro w hw hh
      have h3 : pyLower w = pyLower v := congrArg Prod.fst hh
      exact hnd1 (h3 ▸ List.mem_map_of_mem pyLower hw)
    rcases hcf : cacheFind cache (pyLower v, pyLower artist) with _ | r
    · -- uncached variant: external query happens
      have hres : specResolve query cache artist v = performLookup query v artist := by
        unfold specResolve
        rw [hcf]
      by_cases hr2 : (performLookup query v artist).2.isSome = true
      · -- query found a date: stop
        have hout : lookupVariants query artist (v :: rest) cache (none, none) =
            (performLookup query v artist,
             cacheInsert cache (pyLower v, pyLower artist)
               (performLookup query v artist), [v]) := by
          simp only [lookupVariants]
          rw [hcf]
          simp only [hr2, ite_true]
        rw [hout]
        refine ⟨?_, ?_, ?_, ?_, ?_⟩
        · rw [List.find?_cons_of_pos _ (by simp only [hres, hr2])]
          exact hres.symm
        · intro kv hkv hnone
          rcases List.mem_cons.mp hkv with rfl | hkv'
          · simp only at hnone
            rw [hnone] at hr2
            simp at hr2
          · exact hinv kv hkv' hnone
        · intro w hw
          rw [List.mem_singleton] at hw
          subst hw
          exact ⟨List.mem_cons_self _ _, hcf⟩
        · intro w hw
          rw [List.mem_singleton] at hw
          subst hw
          exact cacheFind_insert_self _ _ _
        · intro k hk
          exact cacheFind_insert_ne _ _ _ _
            (hk v (List.mem_cons_self _ _))
      · -- query found nothing: result is (None, None), loop continues
        have hrn : performLookup query v artist = (none, none) := by
          apply performLookup_none
          rcases hq : (performLookup query v artist).2 with _ | dd
          · rfl
          · rw [hq] at hr2
            simp at hr2
        have hout : lookupVariants query artist (v :: rest) cache (none, none) =
            ((lookupVariants query artist rest
               (cacheInsert cache (pyLower v, pyLower artist)
                 (performLookup query v artist)) (none, none)).1,
             (lookupVariants query artist rest
               (cacheInsert cache (pyLower v, pyLower artist)
                 (performLookup query v artist)) (none, none)).2.1,
             v :: (lookupVariants query artist rest
               (cacheInsert cache (pyLower v, pyLower artist)
                 (performLookup query v artist)) (none, none)).2.2) := by
          simp only [lookupVariants]
          rw [hcf]
          simp [hrn]
        rw [hout]
        have hinv2 : CacheInv (cacheInsert cache (pyLower v, pyLower artist)
            (performLookup query v artist)) := by
          intro kv hkv hnone
          rcases List.mem_cons.mp hkv with rfl | hkv'
          · rw [hrn]
          · exact hinv kv hkv' hnone
        obtain ⟨iha, ihb, ihc, ihd, ihe⟩ := ih
          (cacheInsert cache (pyLower v, pyLower artist)
            (performLookup query v artist)) hinv2 hndr
        have hspec : ∀ w ∈ rest,
            specResolve query (cacheInsert cache (pyLower v, pyLower artist)
              (performLookup query v artist)) artist w
              = specResolve query cache artist w := by
          intro w hw
          exact specResolve_insert_ne query cache artist v w _
            (fun hh => hnd1 (hh ▸ List.mem_map_of_mem pyLower hw))
        refine ⟨?_, ihb, ?_, ?_, ?_⟩
        · dsimp only
          rw [iha]
          rw [List.find?_cons_of_neg _ (by simp only [hres, hr2]; simp)]
          rw [find?_congr_mem rest (fun w hw => by rw [hspec w hw])]
          rcases hfind : rest.find?
              (fun w => (specResolve query cache artist w).2.isSome) with _ | w
          · rfl
          · exact hspec w (List.mem_of_find?_eq_some hfind)
        · intro w hw
          dsimp only at hw
          rcases List.mem_cons.mp hw with rfl | hw'
          · exact ⟨List.mem_cons_self _ _, hcf⟩
          · obtain ⟨hmem, hcf2⟩ := ihc w hw'
            refine ⟨List.mem_cons_of_mem v hmem, ?_⟩
            rw [cacheFind_insert_ne _ _ _ _ (hkne w hmem)] at hcf2
            exact hcf2
        · intro w hw
          dsimp only at hw ⊢
          rcases List.mem_cons.mp hw with rfl | hw'
          · rw [ihe _ (fun u hu => Ne.symm (hkne u hu))]
            exact cacheFind_insert_self _ _ _
          · exact ihd w hw'
        · intro k hk
          dsimp only
          rw [ihe k (fun u hu => hk u (List.mem_cons_of_mem v hu)),
            cacheFind_insert_ne _ _ _ _ (hk v (List.mem_cons_self _ _))]
    · -- cached variant: no query
      have hres : specResolve query cache artist v = r := by
        unfold specResolve
        rw [hcf]
      by_cases hr2 : r.2.isSome = true
      · have hout : lookupVariants query artist (v :: rest) cache (none, none) =
            (r, cache, []) := by
          simp only [lookupVariants]
          rw [hcf]
          simp only [hr2, ite_true]
        rw [hout]
        refine ⟨?_, hinv, by simp, by simp, fun k _ => rfl⟩
        rw [List.find?_cons_of_pos _ (by simp only [hres, hr2])]
        exact hres.symm
      · have hr0 : r = (none, none) :=
          cached_nodate_eq_none hinv hcf (Bool.eq_false_iff.mpr hr2)
        have hout : lookupVariants query artist (v :: rest) cache (none, none) =
            lookupVariants query artist rest cache (none, none) := by
          simp only [lookupVariants]
          rw [hcf]
          simp [hr0]
        rw [hout]
        obtain ⟨iha, ihb, ihc, ihd, ihe⟩ := ih cache hinv hndr
        refine ⟨?_, ihb, ?_, ihd, ?_⟩
        · rw [iha, List.find?_cons_of_neg _ (by simp only [hres, hr2]; simp)]
        · intro w hw
          obtain ⟨hmem, hcf2⟩ := ihc w hw
          exact ⟨List.mem_cons_of_mem v hmem, hcf2⟩
        · intro k hk
          exact ihe k (fun u hu => hk u (List.mem_cons_of_mem v hu))

/-! ## The enricher (`release_date.py`, `enrich_with_release_dates`)

The lookup layer is abstracted into a function from (album, artist) to an
outcome: `ok id date` for a normal return, `err` for a
`requests.RequestException` raised from the transport.  The `time.sleep`
pacing has no observable effect on the data and is not modelled.  The
second component of the result lists the (album, artist) pairs for which
`lookup_release` was invoked.
-/

inductive LookupOutcome where
  | ok (mbid : Option String) (rd : Option PyDate)
  | err
deriving DecidableEq

/-- The loop body of `enrich_with_release_dates` for one album. -/
def enrichOne (look : String → String → LookupOutcome)
    (a : AlbumListening) : AlbumListening :=
  if a.release_date.isSome then a
  else
    match look a.album a.artist with
    | .err => a
    | .ok mbid rd =>
      { a with
        release_date := if rd.isSome then rd else a.release_date,
        musicbrainz_id := if mbid.isSome then mbid else a.musicbrainz_id }

/-- `enrich_with_release_dates(albums)`: the processed list and the
lookups attempted (an `err` outcome still counts as an attempted call). -/
def enrichWithReleaseDates (look : String → String → LookupOutcome)
    (albums : List AlbumListening) :
    List AlbumListening × List (String × String) :=
  (albums.map (enrichOne look),
   albums.filterMap (fun a =>
     if a.release_date.isSome then none else some (a.album, a.artist)))

/-! ## The archive reader (`parser.py`, `_iter_json_streams`)

File reading and top-level JSON decoding are outside the embedding: an
`ArchiveFile` carries `path.suffix`, the decoded top-level value of its
bytes read as JSON, and its member table read as a ZIP (only the one the
suffix selects is ever consulted).  A member whose `parsed` field is
`none` models a `json.JSONDecodeError` on that member.  Records are the
extracted tuples of §4.1 (`_extract_album_entry` applied to each dict),
non-dict list elements yield nothing. -/

inductive JsonVal where
  | dict (record : RawRecord)
  | nondict
deriving DecidableEq

inductive JsonTop where
  | list (items : List JsonVal)
  | nonList
deriving DecidableEq

structure ZipMember where
  name : String
  parsed : Option JsonTop
deriving DecidableEq

structure ArchiveFile where
  path : String
  suffix : String
  asJson : JsonTop
  asZip : List ZipMember
deriving DecidableEq

/-- Dict-typed elements of a list-typed top-level value. -/
def topRecords : JsonTop → List RawRecord
  | .list items => items.filterMap (fun v =>
      match v with
      | .dict r => some r
      | .nondict => none)
  | .nonList => []

/-- `SUPPORTED_JSON_SUFFIXES` — compared, as the code does, against the
*lowercased* member name, so only the all-lowercase pattern can match. -/
def supportedJsonSuffixes : List String :=
  ["endsong_", "Streaming_History_Audio", "StreamingHistory"]

/-- Records yielded by one ZIP member (name filters, then JSON parse with
per-member failure skipping). -/
def zipMemberRecords (m : ZipMember) : List RawRecord :=
  if !(strEndsWith ".json" (pyLower m.name)) then []
  else if !(supportedJsonSuffixes.any (fun suf => strHasSub suf (pyLower m.name)))
  then []
  else
    match m.parsed with
    | none => []
    | some top => topRecords top

/-- `_iter_json_streams(path)` (records listed eagerly; the error is the
`ValueError` message, which names the offending path). -/
def iterJsonStreams (f : ArchiveFile) : Except String (List RawRecord) :=
  if pyLower f.suffix = ".json" then .ok (topRecords f.asJson)
  else if pyLower f.suffix = ".zip" then
    .ok (f.asZip.flatMap zipMemberRecords)
  else .error ("Unsupported archive format: " ++ f.path)

/-! ## Claim theorems -/

/-- C1: `aggregate_archives` skips records with a falsy album or artist
or non-positive minutes; the rest merge under the (trimmed album,
trimmed artist) key, minutes summed from 0.0 and non-empty track names
collected into the set; the output is sorted by minutes descending with
ties kept in first-encounter order (`totalsList` is the totals dict in
first-encounter order, and the sort leaves each equal-minutes class
unpermuted); `filter_by_minutes` is the order-preserving subsequence of
entries with `minutes ≥ threshold`, inclusively. -/
theorem aggregate_filter_spec (paths : List (List RawRecord)) (m : ℚ) :
    (∀ e ∈ aggregateArchives paths,
      e.minutes = contribMinutes paths.flatten (e.album, e.artist) ∧
      e.tracks = contribTracks paths.flatten (e.album, e.artist) ∧
      hasKey paths.flatten (e.album, e.artist) = true) ∧
    (∀ k, hasKey paths.flatten k = true →
      ∃ e ∈ aggregateArchives paths, (e.album, e.artist) = k) ∧
    (aggregateArchives paths).Pairwise (fun a b => b.minutes ≤ a.minutes) ∧
    (∀ c : ℚ,
      (aggregateArchives paths).filter (fun e => decide (e.minutes = c)) =
        (totalsList paths).filter (fun e => decide (e.minutes = c))) ∧
    (filterByMinutes (aggregateArchives paths) m).Sublist (aggregateArchives paths) ∧
    (∀ a, a ∈ filterByMinutes (aggregateArchives paths) m ↔
      a ∈ aggregateArchives paths ∧ m ≤ a.minutes) := by
  refine ⟨?_, ?_, ?_, ?_, ?_, ?_⟩
  · intro e he
    have hmem : e ∈ totalsList paths :=
      (mem_insSort minutesGe (totalsList paths) e).mp he
    obtain ⟨hkey, hchar⟩ := totalsList_mem_char paths e hmem
    exact ⟨congrArg AlbumListening.minutes hchar,
      congrArg AlbumListening.tracks hchar, hkey⟩
  · intro k hk
    obtain ⟨e, hmem, hke⟩ := totalsList_mem_of_hasKey paths k hk
    exact ⟨e, (mem_insSort minutesGe (totalsList paths) e).mpr hmem, hke⟩
  · have := insSort_pairwise minutesGe minutesGe_total minutesGe_trans
      (totalsList paths)
    exact this.imp (fun h => of_decide_eq_true h)
  · intro c
    exact insSort_filter minutesGe (fun e => decide (e.minutes = c))
      (minutesGe_sep c) (totalsList paths)
  · exact List.filter_sublist _
  · intro a
    rw [filterByMinutes, List.mem_filter]
    simp

def c1Rec1 : RawRecord :=
  { album := some "Pinkerton", artist := some "Weezer",
    track := some "El Scorcho", minutes := 6 }

def c1Rec2 : RawRecord :=
  { album := some "Pinkerton ", artist := some "Weezer",
    track := some "Getchoo", minutes := 2 }

def c1Entry : AlbumListening :=
  { album := "Pinkerton", artist := "Weezer", minutes := 0 + 6 + 2,
    tracks := insert "Getchoo" (insert "El Scorcho" ∅) }

theorem c1_aggregate_eval : aggregateArchives [[c1Rec1, c1Rec2]] = [c1Entry] := rfl

theorem aggregate_filter_spec_witness :
    c1Entry.minutes = contribMinutes ([[c1Rec1, c1Rec2]].flatten)
      (c1Entry.album, c1Entry.artist) ∧
    (c1Entry ∈ filterByMinutes (aggregateArchives [[c1Rec1, c1Rec2]]) 5 ↔
      c1Entry ∈ aggregateArchives [[c1Rec1, c1Rec2]] ∧ (5 : ℚ) ≤ c1Entry.minutes) :=
  ⟨((aggregate_filter_spec [[c1Rec1, c1Rec2]] 5).1 c1Entry
      (by rw [c1_aggregate_eval]; exact List.mem_singleton.mpr rfl)).1,
   (aggregate_filter_spec [[c1Rec1, c1Rec2]] 5).2.2.2.2.2 c1Entry⟩

/-- C5: aggregating the same archive twice produces the same set of
(album, artist) entries as aggregating it once, each with exactly double
the minutes and an identical track set (the set does not double-count). -/
theorem aggregate_doubling_spec (p : List RawRecord) :
    (∀ e ∈ aggregateArchives [p, p], ∃ e1 ∈ aggregateArchives [p],
      e1.album = e.album ∧ e1.artist = e.artist ∧
      e.minutes = 2 * e1.minutes ∧ e.tracks = e1.tracks) ∧
    (∀ e1 ∈ aggregateArchives [p], ∃ e ∈ aggregateArchives [p, p],
      e.album = e1.album ∧ e.artist = e1.artist) := by
  have hflat2 : ([p, p] : List (List RawRecord)).flatten = p ++ p := by simp
  have hflat1 : ([p] : List (List RawRecord)).flatten = p := by simp
  constructor
  · intro e he
    have hmem := (mem_insSort minutesGe (totalsList [p, p]) e).mp he
    obtain ⟨hkey, hchar⟩ := totalsList_mem_char [p, p] e hmem
    rw [hflat2] at hkey hchar
    have hk1 : hasKey p (keyOf e) = true := by
      rw [hasKey_append, Bool.or_self] at hkey
      exact hkey
    obtain ⟨e1, hmem1, hke1⟩ := totalsList_mem_of_hasKey [p] (keyOf e)
      (by rw [hflat1]; exact hk1)
    obtain ⟨_, hchar1⟩ := totalsList_mem_char [p] e1 hmem1
    rw [hflat1] at hchar1
    rw [hke1] at hchar1
    refine ⟨e1, (mem_insSort minutesGe (totalsList [p]) e1).mpr hmem1,
      congrArg Prod.fst hke1, congrArg Prod.snd hke1, ?_, ?_⟩
    · have hm := congrArg AlbumListening.minutes hchar
      have hm1 := congrArg AlbumListening.minutes hchar1
      rw [contribMinutes_append] at hm
      rw [hm, hm1]
      ring
    · have ht := congrArg AlbumListening.tracks hchar
      have ht1 := congrArg AlbumListening.tracks hchar1
      rw [contribTracks_append, Finset.union_self] at ht
      rw [ht, ht1]
  · intro e1 he1
    have hmem1 := (mem_insSort minutesGe (totalsList [p]) e1).mp he1
    obtain ⟨hkey1, _⟩ := totalsList_mem_char [p] e1 hmem1
    rw [hflat1] at hkey1
    obtain ⟨e, hmem, hke⟩ := totalsList_mem_of_hasKey [p, p] (keyOf e1)
      (by rw [hflat2, hasKey_append, Bool.or_self]; exact hkey1)
    exact ⟨e, (mem_insSort minutesGe (totalsList [p, p]) e).mpr hmem,
      congrArg Prod.fst hke, congrArg Prod.snd hke⟩

def c5Single : AlbumListening :=
  { album := "Pinkerton", artist := "Weezer", minutes := 0 + 6,
    tracks := insert "El Scorcho" ∅ }

def c5Doubled : AlbumListening :=
  { album := "Pinkerton", artist := "Weezer", minutes := 0 + 6 + 6,
    tracks := insert "El Scorcho" (insert "El Scorcho" ∅) }

theorem c5_aggregate_eval :
    aggregateArchives [[c1Rec1], [c1Rec1]] = [c5Doubled] ∧
    aggregateArchives [[c1Rec1]] = [c5Single] := ⟨rfl, rfl⟩

theorem aggregate_doubling_spec_witness :
    ∃ e1 ∈ aggregateArchives [[c1Rec1]],
      e1.album = c5Doubled.album ∧ e1.artist = c5Doubled.artist ∧
      c5Doubled.minutes = 2 * e1.minutes ∧ c5Doubled.tracks = e1.tracks :=
  (aggregate_doubling_spec [c1Rec1]).1 c5Doubled
    (by rw [c5_aggregate_eval.1]; exact List.mem_singleton.mpr rfl)

/-- C2: `calculate_upcoming_birthdays` keeps exactly the albums with a
release date whose next anniversary (this year, or next year when this
year's date falls before the reference date, with February 29 mapped to
February 28 in non-leap target years) lies at most `within_days` whole
days ahead (inclusive boundary; `days_until` is the ordinal-date
difference), and sorts the events by (`days_until`, artist, album)
ascending. -/
theorem upcoming_birthdays_spec (albums : List AlbumListening)
    (today : PyDate) (withinDays : ℤ) :
    (∀ e, e ∈ calculateUpcomingBirthdays albums today withinDays ↔
      ∃ a ∈ albums, ∃ rd, a.release_date = some rd ∧
        e.album = a ∧
        e.next_date = nextBirthday rd today ∧
        e.days_until = toOrdinal (nextBirthday rd today) - toOrdinal today ∧
        e.age = ((nextBirthday rd today).year : ℤ) - (rd.year : ℤ) ∧
        e.days_until ≤ withinDays) ∧
    (∀ rd : PyDate,
      ¬ dateLt (nextBirthday rd today) today ∧
      (((nextBirthday rd today).year = today.year ∧
          ¬ dateLt (replaceYear rd today.year) today) ∨
        ((nextBirthday rd today).year = today.year + 1 ∧
          dateLt (replaceYear rd today.year) today)) ∧
      (rd.month = 2 ∧ rd.day = 29 ∧ ¬ isLeap (nextBirthday rd today).year →
        (nextBirthday rd today).month = 2 ∧ (nextBirthday rd today).day = 28) ∧
      (¬ (rd.month = 2 ∧ rd.day = 29 ∧ ¬ isLeap (nextBirthday rd today).year) →
        (nextBirthday rd today).month = rd.month ∧
        (nextBirthday rd today).day = rd.day)) ∧
    (calculateUpcomingBirthdays albums today withinDays).Pairwise
      (fun x y => lexLe3 (birthdayKey x) (birthdayKey y)) := by
  refine ⟨?_, ?_, ?_⟩
  · intro e
    rw [mem_calculateUpcomingBirthdays]
    constructor
    · rintro ⟨a, ha, hev⟩
      obtain ⟨rd, h1, h2, h3, h4, h5, h6⟩ := (birthdayEvent_eq_some _ _ _ _).mp hev
      exact ⟨a, ha, rd, h1, h2, h3, h4, h5, h6⟩
    · rintro ⟨a, ha, rd, h1, h2, h3, h4, h5, h6⟩
      exact ⟨a, ha, (birthdayEvent_eq_some _ _ _ _).mpr
        ⟨rd, h1, h2, h3, h4, h5, h6⟩⟩
  · intro rd
    exact ⟨nextBirthday_not_lt rd today, nextBirthday_year rd today,
      (nextBirthday_monthday rd today).1, (nextBirthday_monthday rd today).2⟩
  · have := insSort_pairwise birthdayLe birthdayLe_total birthdayLe_trans
      (albums.filterMap (birthdayEvent today withinDays))
    exact this.imp (fun h => of_decide_eq_true h)

def c2Album : AlbumListening :=
  { album := "OK Computer", artist := "Radiohead", minutes := 480,
    release_date := some ⟨2020, 5, 1⟩ }

def c2Event : UpcomingBirthday :=
  { album := c2Album, next_date := ⟨2025, 5, 1⟩, age := 5, days_until := 334 }

theorem upcoming_birthdays_spec_witness :
    c2Event ∈ calculateUpcomingBirthdays [c2Album] ⟨2024, 6, 1⟩ 365 :=
  ((upcoming_birthdays_spec [c2Album] ⟨2024, 6, 1⟩ 365).1 c2Event).mpr
    ⟨c2Album, List.mem_singleton.mpr rfl, ⟨2020, 5, 1⟩, rfl, rfl,
      by decide, by decide, by decide, by decide⟩

/-- C6: serializing a list of `AlbumListening` values and loading the
result back reproduces every field exactly — album, artist, release
date, MusicBrainz id, and the track set (sorting then re-collecting a
set is the identity) — except `minutes`, which comes back rounded to two
decimal places. -/
theorem roundtrip_spec (albums : List AlbumListening) :
    loadAlbums (serializeAlbums albums) =
      albums.map (fun a => { a with minutes := round2 a.minutes }) := by
  unfold loadAlbums serializeAlbums
  simp only [List.map_map]
  exact List.map_congr_left (fun a _ => fromDict_toDict a)

/-- C4: `_title_variants` returns the trimmed original first, followed by
the cleaned title exactly when the latter is non-empty and
case-insensitively different; variants are case-insensitively distinct
and the list is never empty; when the trimmed original is empty the
cleaned candidate is empty too and the original is returned verbatim as
the sole variant; in particular `"Pinkerton - Deluxe Edition"` yields
`["Pinkerton - Deluxe Edition", "Pinkerton"]`. -/
theorem title_variants_spec (album : String) :
    (pyStrip album ≠ "" →
      titleVariants album =
        if pyStrip (stripEditionSuffixes album) ≠ "" ∧
            pyLower (pyStrip (stripEditionSuffixes album)) ≠
              pyLower (pyStrip album)
        then [pyStrip album, pyStrip (stripEditionSuffixes album)]
        else [pyStrip album]) ∧
    (pyStrip album = "" →
      pyStrip (stripEditionSuffixes album) = "" ∧
      titleVariants album = [album]) ∧
    titleVariants album ≠ [] ∧
    ((titleVariants album).map pyLower).Nodup ∧
    (pyStrip album ≠ "" → ∀ v ∈ titleVariants album, v ≠ "") ∧
    titleVariants "Pinkerton - Deluxe Edition" =
      ["Pinkerton - Deluxe Edition", "Pinkerton"] := by
  refine ⟨titleVariants_of_ne album, titleVariants_of_empty album,
    titleVariants_ne_nil album, titleVariants_lower_nodup album, ?_, by decide⟩
  intro h1 v hv
  rw [titleVariants_of_ne album h1] at hv
  split_ifs at hv with h
  · rcases List.mem_cons.mp hv with rfl | hv'
    · exact h1
    · rw [List.mem_singleton] at hv'
      subst hv'
      exact h.1
  · rw [List.mem_singleton] at hv
    subst hv
    exact h1

theorem title_variants_spec_witness :
    (pyStrip (stripEditionSuffixes "") = "" ∧ titleVariants "" = [""]) ∧
    titleVariants "Pinkerton - Deluxe Edition" =
      (if pyStrip (stripEditionSuffixes "Pinkerton - Deluxe Edition") ≠ "" ∧
          pyLower (pyStrip (stripEditionSuffixes "Pinkerton - Deluxe Edition")) ≠
            pyLower (pyStrip "Pinkerton - Deluxe Edition")
       then [pyStrip "Pinkerton - Deluxe Edition",
             pyStrip (stripEditionSuffixes "Pinkerton - Deluxe Edition")]
       else [pyStrip "Pinkerton - Deluxe Edition"]) :=
  ⟨(title_variants_spec "").2.1 rfl,
   (title_variants_spec "Pinkerton - Deluxe Edition").1 (by decide)⟩

theorem digit_ne_dash {c : Char} (h : c.isDigit = true) : ¬ c = '-' := by
  rintro rfl
  exact absurd h (by decide)

theorem stringMk_ne_empty {l : List Char} (h : l ≠ []) : String.mk l ≠ "" := by
  intro hc
  exact h (by simpa using congrArg String.data hc)

theorem parseReleaseDate_digits1 (y : List Char) (hy : y ≠ [])
    (hyd : ∀ c ∈ y, c.isDigit = true) :
    parseReleaseDate (some (String.mk y)) = mkPyDate (digitsToNat y) 1 1 := by
  show (if String.mk y = "" then none
        else parseParts (splitOnDash (String.mk y).data)) = _
  rw [if_neg (stringMk_ne_empty hy),
    show (String.mk y).data = y from rfl,
    splitOnDash_no_dash y (fun hmem => digit_ne_dash (hyd '-' hmem) rfl),
    parseParts, pyIntChars_digits y hy hyd]
  rfl

theorem parseReleaseDate_digits2 (y m : List Char) (hy : y ≠ []) (hm : m ≠ [])
    (hyd : ∀ c ∈ y, c.isDigit = true) (hmd : ∀ c ∈ m, c.isDigit = true) :
    parseReleaseDate (some (String.mk (y ++ '-' :: m))) =
      mkPyDate (digitsToNat y) (digitsToNat m) 1 := by
  show (if String.mk (y ++ '-' :: m) = "" then none
        else parseParts (splitOnDash (String.mk (y ++ '-' :: m)).data)) = _
  rw [if_neg (stringMk_ne_empty (by simp)),
    show (String.mk (y ++ '-' :: m)).data = y ++ '-' :: m from rfl,
    splitOnDash_append y m (fun hmem => digit_ne_dash (hyd '-' hmem) rfl),
    splitOnDash_no_dash m (fun hmem => digit_ne_dash (hmd '-' hmem) rfl),
    parseParts, pyIntChars_digits y hy hyd, pyIntChars_digits m hm hmd]
  rfl

theorem parseReleaseDate_digits3 (y m d : List Char) (hy : y ≠ [])
    (hm : m ≠ []) (hd : d ≠ [])
    (hyd : ∀ c ∈ y, c.isDigit = true) (hmd : ∀ c ∈ m, c.isDigit = true)
    (hdd : ∀ c ∈ d, c.isDigit = true) :
    parseReleaseDate (some (String.mk (y ++ '-' :: (m ++ '-' :: d)))) =
      mkPyDate (digitsToNat y) (digitsToNat m) (digitsToNat d) := by
  show (if String.mk (y ++ '-' :: (m ++ '-' :: d)) = "" then none
        else parseParts (splitOnDash
          (String.mk (y ++ '-' :: (m ++ '-' :: d))).data)) = _
  rw [if_neg (stringMk_ne_empty (by simp)),
    show (String.mk (y ++ '-' :: (m ++ '-' :: d))).data
      = y ++ '-' :: (m ++ '-' :: d) from rfl,
    splitOnDash_append y (m ++ '-' :: d)
      (fun hmem => digit_ne_dash (hyd '-' hmem) rfl),
    splitOnDash_append m d (fun hmem => digit_ne_dash (hmd '-' hmem) rfl),
    splitOnDash_no_dash d (fun hmem => digit_ne_dash (hdd '-' hmem) rfl),
    parseParts, pyIntChars_digits y hy hyd, pyIntChars_digits m hm hmd,
    pyIntChars_digits d hd hdd]
  rfl

theorem parseReleaseDateE_digits1 (y : List Char) (hy : y ≠ [])
    (hyd : ∀ c ∈ y, c.isDigit = true) :
    parseReleaseDateE (some (String.mk y)) =
      specDateOutcome (digitsToNat y) 1 1 := by
  show (if String.mk y = "" then Except.ok none
        else partsToDate (splitOnDash (String.mk y).data)) = _
  rw [if_neg (stringMk_ne_empty hy),
    show (String.mk y).data = y from rfl,
    splitOnDash_no_dash y (fun hmem => digit_ne_dash (hyd '-' hmem) rfl),
    partsToDate, pyIntChars_digits y hy hyd]
  exact catch_pyDateCtor _ _ _

theorem parseReleaseDateE_digits2 (y m : List Char) (hy : y ≠ []) (hm : m ≠ [])
    (hyd : ∀ c ∈ y, c.isDigit = true) (hmd : ∀ c ∈ m, c.isDigit = true) :
    parseReleaseDateE (some (String.mk (y ++ '-' :: m))) =
      specDateOutcome (digitsToNat y) (digitsToNat m) 1 := by
  show (if String.mk (y ++ '-' :: m) = "" then Except.ok none
        else partsToDate (splitOnDash (String.mk (y ++ '-' :: m)).data)) = _
  rw [if_neg (stringMk_ne_empty (by simp)),
    show (String.mk (y ++ '-' :: m)).data = y ++ '-' :: m from rfl,
    splitOnDash_append y m (fun hmem => digit_ne_dash (hyd '-' hmem) rfl),
    splitOnDash_no_dash m (fun hmem => digit_ne_dash (hmd '-' hmem) rfl),
    partsToDate, pyIntChars_digits y hy hyd, pyIntChars_digits m hm hmd]
  exact catch_pyDateCtor _ _ _

theorem parseReleaseDateE_digits3 (y m d : List Char) (hy : y ≠ [])
    (hm : m ≠ []) (hd : d ≠ [])
    (hyd : ∀ c ∈ y, c.isDigit = true) (hmd : ∀ c ∈ m, c.isDigit = true)
    (hdd : ∀ c ∈ d, c.isDigit = true) :
    parseReleaseDateE (some (String.mk (y ++ '-' :: (m ++ '-' :: d)))) =
      specDateOutcome (digitsToNat y) (digitsToNat m) (digitsToNat d) := by
  show (if String.mk (y ++ '-' :: (m ++ '-' :: d)) = "" then Except.ok none
        else partsToDate (splitOnDash
          (String.mk (y ++ '-' :: (m ++ '-' :: d))).data)) = _
  rw [if_neg (stringMk_ne_empty (by simp)),
    show (String.mk (y ++ '-' :: (m ++ '-' :: d))).data
      = y ++ '-' :: (m ++ '-' :: d) from rfl,
    splitOnDash_append y (m ++ '-' :: d)
      (fun hmem => digit_ne_dash (hyd '-' hmem) rfl),
    splitOnDash_append m d (fun hmem => digit_ne_dash (hmd '-' hmem) rfl),
    splitOnDash_no_dash d (fun hmem => digit_ne_dash (hdd '-' hmem) rfl),
    partsToDate, pyIntChars_digits y hy hyd, pyIntChars_digits m hm hmd,
    pyIntChars_digits d hd hdd]
  exact catch_pyDateCtor _ _ _

theorem parseReleaseDateE_overflow (y : List Char) (hy : y ≠ [])
    (hyd : ∀ c ∈ y, c.isDigit = true)
    (hbig : (2147483648 : ℤ) ≤ (digitsToNat y : ℤ)) :
    parseReleaseDateE (some (String.mk y)) =
      Except.error PyExc.overflowError := by
  rw [parseReleaseDateE_digits1 y hy hyd]
  unfold specDateOutcome
  rw [if_neg]
  intro hf
  unfold fitsCInt at hf
  simp only [Bool.and_eq_true, decide_eq_true_eq] at hf
  omega

/-- C9 (counterexample): both halves of the claim fail.  `" 2020"` is of
none of the forms `YYYY`, `YYYY-MM`, `YYYY-MM-DD`, yet it parses to
January 1st, 2020 (Python's `int` also takes surrounding whitespace, a
sign, or underscore grouping); and the parser can raise to the caller:
on `"9999999999"` the `date` constructor's C-int conversion raises
`OverflowError`, which the `except ValueError` handler does not catch. -/
theorem parse_release_date_cex :
    (¬ (∀ s : String, canonicalDateForm s = false →
        parseReleaseDateE (some s) = Except.ok none)) ∧
    (¬ (∀ s : String, ∃ o, parseReleaseDateE (some s) = Except.ok o)) := by
  constructor
  · intro h
    have h2 := h " 2020" (by decide)
    rw [show parseReleaseDateE (some " 2020")
        = Except.ok (some ⟨2020, 1, 1⟩) from rfl] at h2
    simp at h2
  · intro h
    obtain ⟨o, ho⟩ := h "9999999999"
    rw [show parseReleaseDateE (some "9999999999")
        = Except.error PyExc.overflowError from rfl] at ho
    cases ho

/-- C9 (amended): on ASCII strings — the fragment on which the `int()`
model is exact — the parser behaves as follows.  A falsy value, a
dash-split of more than three components, or a component rejected by
`int()` yields `None`; components accepted by `int()` (digits optionally
surrounded by whitespace, with an optional sign or underscore grouping)
are handed to the `date` constructor with missing month and day
defaulting to 1, where a component outside the C-int range raises an
`OverflowError` that escapes to the caller (only `ValueError` is caught),
an invalid calendar date yields `None`, and otherwise the parsed date —
always a valid calendar date — is returned.  In particular every
pure-digit `YYYY`, `YYYY-MM`, `YYYY-MM-DD` form is accepted when its
components are in range, a pure-digit year of value at least 2³¹ raises,
and whenever the function returns at all its result agrees with the
total model `parseReleaseDate` used by the lookup. -/
theorem parse_release_date_amended (raw : Option String)
    (hascii : ∀ s, raw = some s → asciiStr s) :
    parseReleaseDateE raw = specParseReleaseDateE raw ∧
    (∀ x, parseReleaseDateE raw = Except.ok (some x) → x.valid) ∧
    (∀ o, parseReleaseDateE raw = Except.ok o → parseReleaseDate raw = o) ∧
    (∀ e, parseReleaseDateE raw = Except.error e →
      e = PyExc.overflowError) ∧
    (∀ y : List Char, y ≠ [] → (∀ c ∈ y, c.isDigit = true) →
      parseReleaseDateE (some (String.mk y)) =
        specDateOutcome (digitsToNat y) 1 1) ∧
    (∀ y m : List Char, y ≠ [] → m ≠ [] →
      (∀ c ∈ y, c.isDigit = true) → (∀ c ∈ m, c.isDigit = true) →
      parseReleaseDateE (some (String.mk (y ++ '-' :: m))) =
        specDateOutcome (digitsToNat y) (digitsToNat m) 1) ∧
    (∀ y m d : List Char, y ≠ [] → m ≠ [] → d ≠ [] →
      (∀ c ∈ y, c.isDigit = true) → (∀ c ∈ m, c.isDigit = true) →
      (∀ c ∈ d, c.isDigit = true) →
      parseReleaseDateE (some (String.mk (y ++ '-' :: (m ++ '-' :: d)))) =
        specDateOutcome (digitsToNat y) (digitsToNat m) (digitsToNat d)) ∧
    (∀ y : List Char, y ≠ [] → (∀ c ∈ y, c.isDigit = true) →
      (2147483648 : ℤ) ≤ (digitsToNat y : ℤ) →
      parseReleaseDateE (some (String.mk y)) =
        Except.error PyExc.overflowError) :=
  ⟨parseReleaseDateE_eq_spec raw,
   fun x h => parseReleaseDate_valid
     (show parseReleaseDate raw = some x by
       rw [parseReleaseDate_totalize, h]; rfl),
   fun o h => by rw [parseReleaseDate_totalize, h]; rfl,
   fun e h => specParseReleaseDateE_error
     (by rw [parseReleaseDateE_eq_spec raw] at h; exact h),
   parseReleaseDateE_digits1, parseReleaseDateE_digits2,
   parseReleaseDateE_digits3, parseReleaseDateE_overflow⟩

theorem parse_release_date_amended_witness :
    parseReleaseDateE (some "1996-09-24") =
      specParseReleaseDateE (some "1996-09-24") ∧
    PyDate.valid ⟨1996, 9, 24⟩ ∧
    parseReleaseDateE
        (some (String.mk ['9', '9', '9', '9', '9', '9', '9', '9', '9', '9'])) =
      Except.error PyExc.overflowError :=
  ⟨(parse_release_date_amended (some "1996-09-24")
      (fun s hs => by rw [← Option.some.inj hs]; decide)).1,
   (parse_release_date_amended (some "1996-09-24")
      (fun s hs => by rw [← Option.some.inj hs]; decide)).2.1
     ⟨1996, 9, 24⟩ rfl,
   (parse_release_date_amended none (fun s hs => Option.noConfusion hs)
      ).2.2.2.2.2.2.2 ['9', '9', '9', '9', '9', '9', '9', '9', '9', '9']
     (by decide) (by decide) (by decide)⟩

theorem lookupRelease_hit (query : String → String → List CatalogItem)
    (cache : Cache) (album artist : String) (r : LookupResult)
    (hcf : cacheFind cache (pyLower album, pyLower artist) = some r) :
    lookupRelease query cache album artist = (r, cache, []) := by
  unfold lookupRelease
  rw [hcf]

theorem lookupRelease_miss (query : String → String → List CatalogItem)
    (cache : Cache) (album artist : String)
    (hcf : cacheFind cache (pyLower album, pyLower artist) = none) :
    lookupRelease query cache album artist =
      ((lookupVariants query artist (titleVariants album) cache (none, none)).1,
       cacheInsert (lookupVariants query artist (titleVariants album) cache
          (none, none)).2.1 (pyLower album, pyLower artist)
         (lookupVariants query artist (titleVariants album) cache
          (none, none)).1,
       (lookupVariants query artist (titleVariants album) cache
          (none, none)).2.2) := by
  unfold lookupRelease
  rw [hcf]

theorem lookupRelease_miss_fst (query : String → String → List CatalogItem)
    (cache : Cache) (album artist : String)
    (hcf : cacheFind cache (pyLower album, pyLower artist) = none) :
    (lookupRelease query cache album artist).1 =
      (lookupVariants query artist (titleVariants album) cache (none, none)).1 := by
  unfold lookupRelease
  rw [hcf]

theorem lookupRelease_miss_queries (query : String → String → List CatalogItem)
    (cache : Cache) (album artist : String)
    (hcf : cacheFind cache (pyLower album, pyLower artist) = none) :
    (lookupRelease query cache album artist).2.2 =
      (lookupVariants query artist (titleVariants album) cache (none, none)).2.2 := by
  unfold lookupRelease
  rw [hcf]

theorem lookupRelease_miss_cache (query : String → String → List CatalogItem)
    (cache : Cache) (album artist : String)
    (hcf : cacheFind cache (pyLower album, pyLower artist) = none) :
    (lookupRelease query cache album artist).2.1 =
      cacheInsert (lookupVariants query artist (titleVariants album) cache
        (none, none)).2.1 (pyLower album, pyLower artist)
        (lookupVariants query artist (titleVariants album) cache (none, none)).1 := by
  unfold lookupRelease
  rw [hcf]

/-- The §4.6 result shape, shared by the lookup claims: on a cache miss
the loop's answer is the first date-carrying variant's resolution, else
`(None, None)`. -/
theorem lookupVariants_res (query : String → String → List CatalogItem)
    (cache : Cache) (album artist : String) (hinv : CacheInv cache) :
    (lookupVariants query artist (titleVariants album) cache (none, none)).1 =
      (match (titleVariants album).find?
          (fun v => (specResolve query cache artist v).2.isSome) with
       | some v => specResolve query cache artist v
       | none => (none, none)) :=
  (lookupVariants_char query artist (titleVariants album) cache hinv
    (titleVariants_lower_nodup album)).1

/-- The loop answer has a null id whenever it has a null date. -/
theorem lookupVariants_res_inv (query : String → String → List CatalogItem)
    (cache : Cache) (album artist : String) (hinv : CacheInv cache)
    (h2 : (lookupVariants query artist (titleVariants album) cache
      (none, none)).1.2 = none) :
    (lookupVariants query artist (titleVariants album) cache
      (none, none)).1.1 = none := by
  rw [lookupVariants_res query cache album artist hinv] at h2 ⊢
  generalize (titleVariants album).find?
      (fun v => (specResolve query cache artist v).2.isSome) = o at h2 ⊢
  rcases o with _ | v
  · rfl
  · have h3 := specResolve_none query cache artist v hinv h2
    show (specResolve query cache artist v).1 = none
    rw [h3]

set_option maxHeartbeats 2000000 in
/-- C3: `lookup_release` returns a cached answer immediately with no
external query; on a miss it walks the title variants in order, querying
the catalog only for uncached variants, and each query picks the
candidate with the earliest parseable first-release date (first
encountered wins ties); the walk stops at the first variant resolving to
a non-null date, and when none does the answer — `(None, None)` under
the reachable-cache invariant — equals the first variant's resolution;
the overall answer is cached under the original lowercased key. -/
theorem lookup_release_spec (query : String → String → List CatalogItem)
    (cache : Cache) (album artist : String) (hinv : CacheInv cache) :
    (∀ r, cacheFind cache (pyLower album, pyLower artist) = some r →
      lookupRelease query cache album artist = (r, cache, [])) ∧
    (cacheFind cache (pyLower album, pyLower artist) = none →
      ((lookupRelease query cache album artist).1 =
        (match (titleVariants album).find?
            (fun v => (specResolve query cache artist v).2.isSome) with
         | some v => specResolve query cache artist v
         | none => (none, none)) ∧
       (∀ v0, (titleVariants album).head? = some v0 →
         (titleVariants album).find?
            (fun v => (specResolve query cache artist v).2.isSome) = none →
         (lookupRelease query cache album artist).1 =
           specResolve query cache artist v0) ∧
       (∀ v ∈ (lookupRelease query cache album artist).2.2,
         v ∈ titleVariants album ∧
         cacheFind cache (pyLower v, pyLower artist) = none) ∧
       (∀ v ∈ (lookupRelease query cache album artist).2.2,
         pyLower v ≠ pyLower album →
         cacheFind (lookupRelease query cache album artist).2.1
           (pyLower v, pyLower artist) =
             some (performLookup query v artist)) ∧
       cacheFind (lookupRelease query cache album artist).2.1
         (pyLower album, pyLower artist) =
           some (lookupRelease query cache album artist).1)) ∧
    (∀ al ar d, (performLookup query al ar).2 = some d →
      (∀ it ∈ query al ar, ∀ d2,
        parseReleaseDate it.firstReleaseDate = some d2 → ¬ dateLt d2 d) ∧
      ∃ pre it post, query al ar = pre ++ it :: post ∧
        parseReleaseDate it.firstReleaseDate = some d ∧
        (performLookup query al ar).1 = it.id ∧
        ∀ x ∈ pre, ∀ dx, parseReleaseDate x.firstReleaseDate = some dx →
          dateLt d dx) := by
  refine ⟨fun r hcf => lookupRelease_hit query cache album artist r hcf, ?_,
    fun al ar d h => foldl_lookupStep_some (query al ar) d h⟩
  intro hcf
  have h1 := lookupRelease_miss_fst query cache album artist hcf
  have h22 := lookupRelease_miss_queries query cache album artist hcf
  have h21 := lookupRelease_miss_cache query cache album artist hcf
  obtain ⟨_, _, ihc, ihd, _⟩ := lookupVariants_char query artist
    (titleVariants album) cache hinv (titleVariants_lower_nodup album)
  refine ⟨?_, ?_, ?_, ?_, ?_⟩
  · rw [h1]
    exact lookupVariants_res query cache album artist hinv
  · intro v0 hv0 hfind
    rw [h1, lookupVariants_res query cache album artist hinv, hfind]
    have hv0mem : v0 ∈ titleVariants album :=
      List.mem_of_mem_head? (Option.mem_def.mpr hv0)
    have hp0 : (specResolve query cache artist v0).2 = none := by
      have h4 := List.find?_eq_none.mp hfind v0 hv0mem
      rcases hq : (specResolve query cache artist v0).2 with _ | dd
      · rfl
      · exfalso
        rw [hq] at h4
        simp at h4
    rw [specResolve_none query cache artist v0 hinv hp0]
  · intro v hv
    rw [h22] at hv
    exact ihc v hv
  · intro v hv hne
    rw [h22] at hv
    rw [h21, cacheFind_insert_ne _ _ _ _
      (fun hh => hne (congrArg Prod.fst hh))]
    exact ihd v hv
  · rw [h21, h1]
    exact cacheFind_insert_self _ _ _

/-- C10: `_perform_lookup` never returns an id without a date, so every
cache entry with a null date has a null id (the invariant is preserved
by `lookup_release`), and the returned result itself satisfies the same
shape — the §4.6 step-4 fallback can never discard an id-with-no-date
result because no such result exists in this implementation. -/
theorem lookup_invariant_spec (query : String → String → List CatalogItem)
    (cache : Cache) (album artist : String) (hinv : CacheInv cache) :
    (∀ al ar, (performLookup query al ar).2 = none →
      performLookup query al ar = (none, none)) ∧
    CacheInv (lookupRelease query cache album artist).2.1 ∧
    ((lookupRelease query cache album artist).1.2 = none →
      (lookupRelease query cache album artist).1.1 = none) := by
  refine ⟨fun al ar h => performLookup_none query al ar h, ?_, ?_⟩
  · rcases hcf : cacheFind cache (pyLower album, pyLower artist) with _ | r
    · rw [lookupRelease_miss_cache query cache album artist hcf]
      obtain ⟨_, ihb, _, _, _⟩ := lookupVariants_char query artist
        (titleVariants album) cache hinv (titleVariants_lower_nodup album)
      intro kv hkv hnone
      rcases List.mem_cons.mp hkv with rfl | hkv2
      · dsimp only at hnone ⊢
        exact lookupVariants_res_inv query cache album artist hinv hnone
      · exact ihb kv hkv2 hnone
    · rw [lookupRelease_hit query cache album artist r hcf]
      exact hinv
  · intro h2
    rcases hcf : cacheFind cache (pyLower album, pyLower artist) with _ | r
    · rw [lookupRelease_miss_fst query cache album artist hcf] at h2 ⊢
      exact lookupVariants_res_inv query cache album artist hinv h2
    · rw [lookupRelease_hit query cache album artist r hcf] at h2 ⊢
      obtain ⟨kv, hmem, _, hsnd⟩ := cacheFind_some_mem hcf
      have h3 := hinv kv hmem (by rw [hsnd]; exact h2)
      rw [hsnd] at h3
      exact h3

def c3Query : String → String → List CatalogItem := fun t _ =>
  if t = "Pinkerton" then
    [{ id := some "pink-id", firstReleaseDate := some "1996-09-24" }]
  else []

theorem lookup_release_spec_witness :
    (lookupRelease c3Query [] "Pinkerton - Deluxe Edition" "Weezer").1 =
      (match (titleVariants "Pinkerton - Deluxe Edition").find?
          (fun v => (specResolve c3Query [] "Weezer" v).2.isSome) with
       | some v => specResolve c3Query [] "Weezer" v
       | none => (none, none)) :=
  ((lookup_release_spec c3Query [] "Pinkerton - Deluxe Edition" "Weezer"
      (fun kv h => absurd h (List.not_mem_nil kv))).2.1 (by decide)).1

theorem lookup_invariant_spec_witness :
    (lookupRelease c3Query [] "Nothing" "Nobody").1.1 = none :=
  (lookup_invariant_spec c3Query [] "Nothing" "Nobody"
      (fun kv h => absurd h (List.not_mem_nil kv))).2.2 (by decide)

def c7Album : AlbumListening :=
  { album := "Album X", artist := "Artist Y", minutes := 10,
    musicbrainz_id := some "old-id" }

def c7Look : String → String → LookupOutcome :=
  fun _ _ => .ok (some "new-id") none

/-- C7 (counterexample): the claim that enrichment never overwrites
existing data fails — an album that has a `musicbrainz_id` but no
`release_date` is sent to the lookup, and a non-null id in the answer
replaces the stored one. -/
theorem enrich_overwrite_cex :
    ¬ (∀ (look : String → String → LookupOutcome) (a : AlbumListening),
        (enrichOne look a).musicbrainz_id = a.musicbrainz_id ∨
          a.musicbrainz_id = none) := by
  intro h
  rcases h c7Look c7Album with hc | hc
  · exact absurd hc (by decide)
  · exact absurd hc (by decide)

/-- C7 (amended): albums already carrying a release date pass through
untouched with no lookup; a transport failure leaves the album unchanged
and the batch continues (processing is per item, so batches split);
otherwise only `release_date` and `musicbrainz_id` change, each set only
from a non-null lookup value and never cleared — but an existing
`musicbrainz_id` on an album that lacked a release date is overwritten
by a fresh non-null id. -/
theorem enrich_frame_amended (look : String → String → LookupOutcome)
    (a : AlbumListening) :
    (a.release_date.isSome → enrichWithReleaseDates look [a] = ([a], [])) ∧
    (a.release_date = none → look a.album a.artist = .err →
      enrichWithReleaseDates look [a] = ([a], [(a.album, a.artist)])) ∧
    (∀ mbid rd, a.release_date = none → look a.album a.artist = .ok mbid rd →
      (enrichOne look a).album = a.album ∧
      (enrichOne look a).artist = a.artist ∧
      (enrichOne look a).minutes = a.minutes ∧
      (enrichOne look a).tracks = a.tracks ∧
      (enrichOne look a).release_date = (if rd.isSome then rd else a.release_date) ∧
      (enrichOne look a).musicbrainz_id =
        (if mbid.isSome then mbid else a.musicbrainz_id)) ∧
    ((enrichOne look a).release_date = none → a.release_date = none) ∧
    ((enrichOne look a).musicbrainz_id = none → a.musicbrainz_id = none) ∧
    (∀ xs ys, enrichWithReleaseDates look (xs ++ ys) =
      ((enrichWithReleaseDates look xs).1 ++ (enrichWithReleaseDates look ys).1,
       (enrichWithReleaseDates look xs).2 ++
         (enrichWithReleaseDates look ys).2)) := by
  refine ⟨?_, ?_, ?_, ?_, ?_, ?_⟩
  · intro h
    simp [enrichWithReleaseDates, enrichOne, h]
  · intro h1 h2
    simp [enrichWithReleaseDates, enrichOne, h1, h2]
  · intro mbid rd h1 h2
    simp [enrichOne, h1, h2]
  · intro h
    rcases hr : a.release_date with _ | d
    · rfl
    · have h1 : a.release_date.isSome = true := by rw [hr]; rfl
      rw [enrichOne, if_pos h1] at h
      rw [hr] at h
      cases h
  · intro h
    rw [enrichOne] at h
    split_ifs at h with h1
    · exact h
    · cases hl : look a.album a.artist with
      | err =>
        rw [hl] at h
        exact h
      | ok mbid rd =>
        rw [hl] at h
        dsimp only at h
        by_cases h2 : mbid.isSome = true
        · rw [if_pos h2] at h
          rw [h] at h2
          simp at h2
        · rw [if_neg h2] at h
          exact h
  · intro xs ys
    simp [enrichWithReleaseDates, List.map_append, List.filterMap_append]

def c7Dated : AlbumListening :=
  { album := "Dated", artist := "Artist", minutes := 1,
    release_date := some ⟨2000, 1, 1⟩ }

def c7LookErr : String → String → LookupOutcome := fun _ _ => .err

theorem enrich_frame_amended_witness :
    enrichWithReleaseDates c7LookErr [c7Dated] = ([c7Dated], []) ∧
    enrichWithReleaseDates c7LookErr [c7Album] =
      ([c7Album], [(c7Album.album, c7Album.artist)]) ∧
    (enrichOne c7Look c7Album).musicbrainz_id =
      (if (some "new-id" : Option String).isSome then some "new-id"
       else c7Album.musicbrainz_id) :=
  ⟨(enrich_frame_amended c7LookErr c7Dated).1 (by decide),
   (enrich_frame_amended c7LookErr c7Album).2.1 (by decide) rfl,
   ((enrich_frame_amended c7Look c7Album).2.2.1 (some "new-id") none
     (by decide) rfl).2.2.2.2.2⟩

theorem zipMemberRecords_of_bad {m : ZipMember} (h : m.parsed = none) :
    zipMemberRecords m = [] := by
  unfold zipMemberRecords
  split_ifs <;> first | rfl | rw [h]

/-- C8: the archive reader raises its "unsupported format" error, which
names the offending path, exactly when the lowercased extension is
neither `.json` nor `.zip`; a `.json` file whose top-level value is not
a list yields no records without raising; a ZIP member whose JSON fails
to parse contributes nothing while the remaining members are still
processed. -/
theorem archive_reader_spec (f : ArchiveFile) :
    ((∃ msg, iterJsonStreams f = .error msg) ↔
      (pyLower f.suffix ≠ ".json" ∧ pyLower f.suffix ≠ ".zip")) ∧
    (∀ msg, iterJsonStreams f = .error msg →
      msg = "Unsupported archive format: " ++ f.path) ∧
    (pyLower f.suffix = ".json" → f.asJson = .nonList →
      iterJsonStreams f = .ok []) ∧
    (∀ pre post bad, bad.parsed = none → pyLower f.suffix = ".zip" →
      f.asZip = pre ++ bad :: post →
      iterJsonStreams f =
        .ok (pre.flatMap zipMemberRecords ++ post.flatMap zipMemberRecords)) := by
  refine ⟨⟨?_, ?_⟩, ?_, ?_, ?_⟩
  · rintro ⟨msg, hmsg⟩
    unfold iterJsonStreams at hmsg
    split_ifs at hmsg with h1 h2
    exact ⟨h1, h2⟩
  · rintro ⟨h1, h2⟩
    refine ⟨"Unsupported archive format: " ++ f.path, ?_⟩
    unfold iterJsonStreams
    rw [if_neg h1, if_neg h2]
  · intro msg hmsg
    unfold iterJsonStreams at hmsg
    split_ifs at hmsg with h1 h2
    exact (Except.error.inj hmsg).symm
  · intro h1 h2
    unfold iterJsonStreams
    rw [if_pos h1, h2]
    rfl
  · intro pre post bad hbad hzip hsplit
    unfold iterJsonStreams
    have h1 : ¬ pyLower f.suffix = ".json" := by
      rw [hzip]
      decide
    rw [if_neg h1, if_pos hzip, hsplit]
    rw [List.flatMap_append, List.flatMap_cons, zipMemberRecords_of_bad hbad,
      List.nil_append]

def c8Bad : ZipMember := { name := "endsong_1.json", parsed := none }

def c8Good : ZipMember :=
  { name := "endsong_2.json", parsed := some (.list [.dict c1Rec1]) }

def c8Zip : ArchiveFile :=
  { path := "export.ZIP", suffix := ".ZIP", asJson := .nonList,
    asZip := [c8Bad, c8Good] }

def c8Txt : ArchiveFile :=
  { path := "notes.txt", suffix := ".txt", asJson := .nonList, asZip := [] }

theorem archive_reader_spec_witness :
    iterJsonStreams c8Zip =
      .ok (([] : List ZipMember).flatMap zipMemberRecords ++
        [c8Good].flatMap zipMemberRecords) ∧
    (∃ msg, iterJsonStreams c8Txt = .error msg) :=
  ⟨(archive_reader_spec c8Zip).2.2.2 [] [c8Good] c8Bad rfl (by decide) rfl,
   (archive_reader_spec c8Txt).1.mpr ⟨by decide, by decide⟩⟩
